import Mathlib

/-!
# Verification of textplot's `Text` core (textplot/text.py)

A shallow embedding of the tokenization/indexing pipeline, frequency
analysis, kernel density estimation and pairwise scoring of
`textplot/text.py`, together with theorems checking the natural-language
specification against it.

Python exceptions are modelled by the `PyErr` type and fallible
operations return `Except PyErr _`.  The external collaborators that are
not part of the repository unit under `src/` (`textplot.utils.tokenize`,
`textplot.utils.sort_dict`, the stopword file, the stemmer) are modelled
from the specification, as noted on each definition.
-/

/-- The Python exception kinds raised by the code paths under study.
`keyError` models `KeyError` (missing dict key, the spec's
`TermNotFound` condition), `valueError` models `ValueError` raised by
the numeric estimator on malformed parameters, `indexError` models
`IndexError` from out-of-range indexing, `attrError` models
`AttributeError` from a failed dynamic attribute lookup, and `typeError`
models `TypeError` from subscripting `None`. -/
inductive PyErr where
  | keyError
  | valueError
  | indexError
  | attrError
  | typeError
deriving DecidableEq

/-- A positional token as produced by the tokenizer: the surface form
(`unstemmed`), the normalized form (`stemmed`), and the token's rank
among all emitted tokens (`offset`). -/
structure Token where
  unstemmed : String
  stemmed : String
  offset : ℕ
deriving DecidableEq

/-- Modelled from the spec: `textplot.utils.tokenize` is not under
`src/`.  Per the spec the external tokenizing utility splits raw text
into surface words by a deterministic boundary rule (delegated, any
reasonable rule acceptable) and yields, for each word, a token carrying
the surface form, a normalized form produced by the injected
deterministic stemmer, and its sequential offset starting at 0 among all
emitted tokens.  We take the boundary-split word sequence as input. -/
def utilsTokenize (stem : String → String) (ws : List String) : List Token :=
  (List.enumFrom 0 ws).map (fun p => ⟨p.2, stem p.2, p.1⟩)

/-- The state of a `Text` object after `tokenize()`: the ordered token
sequence `tokens` (with `none` as the sentinel for a filtered-out
stopword position) and the Term Index `terms`, an insertion-ordered
association list from normalized term to its offset list (Python's
`OrderedDict`). -/
structure TextM where
  tokens : List (Option Token)
  terms : List (String × List ℕ)
deriving DecidableEq

/-- `self.terms.setdefault(key, []).append(off)` on an insertion-ordered
dict: append `off` to the list of the first entry keyed `key`, or add a
new entry `(key, [off])` at the end. -/
def insertOffset : List (String × List ℕ) → String → ℕ → List (String × List ℕ)
  | [], key, off => [(key, [off])]
  | p :: rest, key, off =>
      if p.1 = key then (p.1, p.2 ++ [off]) :: rest
      else p :: insertOffset rest key off

/-- One iteration of the loop in `Text.tokenize` (text.py:80-93): a
token whose surface (`unstemmed`) form is a stopword is appended to
`self.tokens` as the sentinel `None`; otherwise the token is appended
and its offset is recorded in the Term Index under its stemmed form. -/
def tokStep (stopwords : List String) (s : TextM) (tok : Token) : TextM :=
  if tok.unstemmed ∈ stopwords then ⟨s.tokens ++ [none], s.terms⟩
  else ⟨s.tokens ++ [some tok], insertOffset s.terms tok.stemmed tok.offset⟩

/-- `Text.tokenize` (text.py:67-93): fold the token stream into the
token sequence and the Term Index.  The stopword set is the injected
set-of-strings dependency of the spec (the repository's `stopwords.txt`
is not under `src/`). -/
def buildText (stem : String → String) (stopwords : List String)
    (ws : List String) : TextM :=
  (utilsTokenize stem ws).foldl (tokStep stopwords) ⟨[], []⟩

/-- Lookup in an insertion-ordered association list (Python dict
subscript, returning `none` where Python raises `KeyError`). -/
def assocLookup {κ β : Type _} [DecidableEq κ] : List (κ × β) → κ → Option β
  | [], _ => none
  | p :: rest, k => if p.1 = k then some p.2 else assocLookup rest k

/-- `self.terms[term]`. -/
def lookupTerm (t : TextM) (term : String) : Option (List ℕ) :=
  assocLookup t.terms term

/-- `len(self.terms[term])` as a total function (0 for an absent term);
used to state counting properties. -/
def countOf (t : TextM) (term : String) : ℕ :=
  match lookupTerm t term with
  | some offs => offs.length
  | none => 0

/-! ## Concrete instances used by witnesses and counterexamples -/

/-- A concrete deterministic stemmer instance (the spec's injected
`normalize` dependency): maps the surface form "running" to the root
"run" and is the identity elsewhere. -/
def stem0 (w : String) : String := if w = "running" then "run" else w

/-- A concrete stopword set. -/
def stops0 : List String := ["the"]

/-- A concrete word sequence. -/
def words1 : List String := ["the", "b", "c", "b", "d"]

/-- A concrete text: tokens `[None, b@1, c@2, b@3, d@4]`, index
`{"b": [1, 3], "c": [2], "d": [4]}`. -/
def text1 : TextM := buildText stem0 stops0 words1

/-- The empty text: empty token sequence and empty Term Index. -/
def textEmpty : TextM := buildText stem0 stops0 []

example : text1.terms = [("b", [1, 3]), ("c", [2]), ("d", [4])] := by decide
example : text1.tokens.length = 5 := by decide
example : lookupTerm text1 "b" = some [1, 3] := by decide
example : textEmpty = ⟨[], []⟩ := by decide

/-! ## Well-formedness of the Term Index -/

/-- Well-formedness of a `Text` state: every term's offset list is
nonempty and strictly ascending, every stored offset points at a
non-sentinel token whose stemmed form equals the key, keys are distinct,
and entries are ordered by the first occurrence (the head offset) of
their term. -/
structure TextWF (s : TextM) : Prop where
  nonempty : ∀ p ∈ s.terms, p.2 ≠ []
  ascending : ∀ p ∈ s.terms, p.2.Chain' (· < ·)
  maps : ∀ p ∈ s.terms, ∀ o ∈ p.2,
    ∃ tok : Token, s.tokens[o]? = some (some tok) ∧ tok.stemmed = p.1
  keysNodup : (s.terms.map Prod.fst).Nodup
  firstOcc : s.terms.Pairwise (fun p q => p.2.headI < q.2.headI)

lemma headI_mem_of_ne_nil {α : Type _} [Inhabited α] {l : List α} (h : l ≠ []) :
    l.headI ∈ l := by
  cases l with
  | nil => exact absurd rfl h
  | cons a t => simp

lemma mem_of_getLast?_eq {α : Type _} {l : List α} {a : α} (h : a ∈ l.getLast?) : a ∈ l := by
  obtain ⟨h1, h2⟩ := List.mem_getLast?_eq_getLast h
  subst h2
  exact List.getLast_mem h1

lemma headI_append_of_ne_nil {α : Type _} [Inhabited α] {l : List α} (l' : List α)
    (h : l ≠ []) : (l ++ l').headI = l.headI := by
  cases l with
  | nil => exact absurd rfl h
  | cons a t => simp

lemma chain'_concat_of_lt {l : List ℕ} {a : ℕ} (h : l.Chain' (· < ·))
    (h2 : ∀ x ∈ l, x < a) : (l ++ [a]).Chain' (· < ·) := by
  rw [List.chain'_append]
  refine ⟨h, List.chain'_singleton a, ?_⟩
  intro x hx y hy
  simp only [List.head?_cons, Option.mem_def, Option.some.injEq] at hy
  subst hy
  exact h2 x (mem_of_getLast?_eq hx)

lemma insertOffset_of_not_mem {terms : List (String × List ℕ)} {k : String} (off : ℕ)
    (h : k ∉ terms.map Prod.fst) :
    insertOffset terms k off = terms ++ [(k, [off])] := by
  induction terms with
  | nil => rfl
  | cons p rest ih =>
      simp only [List.map_cons, List.mem_cons] at h
      push_neg at h
      simp only [insertOffset]
      rw [if_neg (Ne.symm h.1), ih h.2, List.cons_append]

lemma insertOffset_of_mem {terms : List (String × List ℕ)} {k : String} (off : ℕ)
    (h : k ∈ terms.map Prod.fst) :
    ∃ pre old post, terms = pre ++ (k, old) :: post ∧
      insertOffset terms k off = pre ++ (k, old ++ [off]) :: post ∧
      k ∉ pre.map Prod.fst := by
  induction terms with
  | nil => simp at h
  | cons p rest ih =>
      by_cases hk : p.1 = k
      · refine ⟨[], p.2, rest, ?_, ?_, by simp⟩
        · simp [← hk]
        · simp [insertOffset, hk]
      · simp only [List.map_cons, List.mem_cons] at h
        rcases h with h | h
        · exact absurd h.symm hk
        · obtain ⟨pre, old, post, h1, h2, h3⟩ := ih h
          refine ⟨p :: pre, old, post, by simp [h1], ?_, ?_⟩
          · simp only [insertOffset, if_neg hk, h2, List.cons_append]
          · simp only [List.map_cons, List.mem_cons]
            push_neg
            exact ⟨fun hh => hk hh.symm, h3⟩

lemma inv_empty : TextWF ⟨[], []⟩ := by
  constructor <;> simp

lemma offset_lt_of_maps {s : TextM} {p : String × List ℕ} {o : ℕ}
    (h : ∃ tok : Token, s.tokens[o]? = some (some tok) ∧ tok.stemmed = p.1) :
    o < s.tokens.length := by
  obtain ⟨tok, h1, _⟩ := h
  exact (List.getElem?_eq_some.mp h1).1

lemma inv_step {stops : List String} {s : TextM} {tok : Token} (h : TextWF s)
    (hoff : tok.offset = s.tokens.length) : TextWF (tokStep stops s tok) := by
  have hbound : ∀ p ∈ s.terms, ∀ o ∈ p.2, o < s.tokens.length := by
    intro p hp o ho
    exact offset_lt_of_maps (h.maps p hp o ho)
  have hget : ∀ (x : Option Token) (o : ℕ), o < s.tokens.length →
      (s.tokens ++ [x])[o]? = s.tokens[o]? := by
    intro x o ho
    exact List.getElem?_append_left ho
  unfold tokStep
  by_cases hstop : tok.unstemmed ∈ stops
  · rw [if_pos hstop]
    refine ⟨h.nonempty, h.ascending, ?_, h.keysNodup, h.firstOcc⟩
    intro p hp o ho
    obtain ⟨tk, h1, h2⟩ := h.maps p hp o ho
    exact ⟨tk, by rw [hget _ o (hbound p hp o ho)]; exact h1, h2⟩
  · rw [if_neg hstop]
    by_cases hk : tok.stemmed ∈ s.terms.map Prod.fst
    · obtain ⟨pre, old, post, he, hi, hfresh⟩ := insertOffset_of_mem tok.offset hk
      have hmem_old : (tok.stemmed, old) ∈ s.terms := by
        rw [he]; exact List.mem_append_right _ (List.mem_cons_self _ _)
      have hold_ne : old ≠ [] := h.nonempty _ hmem_old
      have hold_lt : ∀ x ∈ old, x < tok.offset := by
        intro x hx
        rw [hoff]
        exact hbound _ hmem_old x hx
      rw [hi]
      constructor
      · -- nonempty
        intro p hp
        rcases List.mem_append.mp hp with hp | hp
        · exact h.nonempty p (by rw [he]; exact List.mem_append_left _ hp)
        · rcases List.mem_cons.mp hp with hp | hp
          · subst hp; simp
          · exact h.nonempty p (by rw [he]; exact List.mem_append_right _ (List.mem_cons_of_mem _ hp))
      · -- ascending
        intro p hp
        rcases List.mem_append.mp hp with hp | hp
        · exact h.ascending p (by rw [he]; exact List.mem_append_left _ hp)
        · rcases List.mem_cons.mp hp with hp | hp
          · subst hp
            exact chain'_concat_of_lt (h.ascending _ hmem_old) hold_lt
          · exact h.ascending p (by rw [he]; exact List.mem_append_right _ (List.mem_cons_of_mem _ hp))
      · -- maps
        intro p hp o ho
        have hin : ∀ (q : String × List ℕ), q ∈ s.terms → ∀ o ∈ q.2,
            ∃ tk : Token, (s.tokens ++ [some tok])[o]? = some (some tk) ∧
              tk.stemmed = q.1 := by
          intro q hq o' ho'
          obtain ⟨tk, h1, h2⟩ := h.maps q hq o' ho'
          exact ⟨tk, by rw [hget _ o' (hbound q hq o' ho')]; exact h1, h2⟩
        rcases List.mem_append.mp hp with hp | hp
        · exact hin p (by rw [he]; exact List.mem_append_left _ hp) o ho
        · rcases List.mem_cons.mp hp with hp | hp
          · subst hp
            simp only at ho
            rcases List.mem_append.mp ho with ho | ho
            · exact hin _ hmem_old o ho
            · simp only [List.mem_singleton] at ho
              subst ho
              refine ⟨tok, ?_, rfl⟩
              rw [hoff]
              exact List.getElem?_concat_length s.tokens (some tok)
          · exact hin p (by rw [he]; exact List.mem_append_right _ (List.mem_cons_of_mem _ hp)) o ho
      · -- keysNodup
        have : (pre ++ (tok.stemmed, old ++ [tok.offset]) :: post).map Prod.fst =
            (pre ++ (tok.stemmed, old) :: post).map Prod.fst := by
          simp
        rw [this, ← he]
        exact h.keysNodup
      · -- firstOcc
        have hpw := h.firstOcc
        rw [he] at hpw
        rw [List.pairwise_append] at hpw ⊢
        obtain ⟨hpre, hcons, hcross⟩ := hpw
        rw [List.pairwise_cons] at hcons ⊢
        obtain ⟨hrel, hpost⟩ := hcons
        have hhead : (old ++ [tok.offset]).headI = old.headI :=
          headI_append_of_ne_nil _ hold_ne
        refine ⟨hpre, ⟨?_, hpost⟩, ?_⟩
        · intro q hq
          simp only [hhead]
          exact hrel q hq
        · intro a ha b hb
          rcases List.mem_cons.mp hb with hb | hb
          · subst hb
            simp only [hhead]
            exact hcross a ha _ (List.mem_cons_self _ _)
          · exact hcross a ha b (List.mem_cons_of_mem _ hb)
    · rw [insertOffset_of_not_mem tok.offset hk]
      have hin : ∀ (q : String × List ℕ), q ∈ s.terms → ∀ o ∈ q.2,
          ∃ tk : Token, (s.tokens ++ [some tok])[o]? = some (some tk) ∧
            tk.stemmed = q.1 := by
        intro q hq o' ho'
        obtain ⟨tk, h1, h2⟩ := h.maps q hq o' ho'
        exact ⟨tk, by rw [hget _ o' (hbound q hq o' ho')]; exact h1, h2⟩
      constructor
      · intro p hp
        rcases List.mem_append.mp hp with hp | hp
        · exact h.nonempty p hp
        · simp only [List.mem_singleton] at hp
          subst hp; simp
      · intro p hp
        rcases List.mem_append.mp hp with hp | hp
        · exact h.ascending p hp
        · simp only [List.mem_singleton] at hp
          subst hp
          exact List.chain'_singleton _
      · intro p hp o ho
        rcases List.mem_append.mp hp with hp | hp
        · exact hin p hp o ho
        · simp only [List.mem_singleton] at hp
          subst hp
          simp only [List.mem_singleton] at ho
          subst ho
          refine ⟨tok, ?_, rfl⟩
          rw [hoff]
          exact List.getElem?_concat_length s.tokens (some tok)
      · rw [List.map_append]
        rw [List.nodup_append]
        refine ⟨h.keysNodup, by simp, ?_⟩
        intro a ha hb
        simp only [List.map_cons, List.map_nil, List.mem_singleton] at hb
        subst hb
        exact hk ha
      · rw [List.pairwise_append]
        refine ⟨h.firstOcc, by simp, ?_⟩
        intro a ha b hb
        simp only [List.mem_singleton] at hb
        subst hb
        simp only [List.headI_cons]
        rw [hoff]
        exact hbound a ha _ (headI_mem_of_ne_nil (h.nonempty a ha))

/-- Offsets of a token list are consecutive starting at `n`. -/
def OffsetsFrom : ℕ → List Token → Prop
  | _, [] => True
  | n, tok :: rest => tok.offset = n ∧ OffsetsFrom (n + 1) rest

lemma offsetsFrom_utilsTokenize (stem : String → String) :
    ∀ (ws : List String) (n : ℕ),
      OffsetsFrom n ((List.enumFrom n ws).map (fun p => (⟨p.2, stem p.2, p.1⟩ : Token))) := by
  intro ws
  induction ws with
  | nil => intro n; trivial
  | cons w rest ih =>
      intro n
      exact ⟨rfl, ih (n + 1)⟩

lemma tokStep_tokens_length (stops : List String) (s : TextM) (tok : Token) :
    (tokStep stops s tok).tokens.length = s.tokens.length + 1 := by
  unfold tokStep
  by_cases hstop : tok.unstemmed ∈ stops
  · rw [if_pos hstop]; simp
  · rw [if_neg hstop]; simp

lemma build_inv_aux (stops : List String) :
    ∀ (toks : List Token) (s : TextM), TextWF s → OffsetsFrom s.tokens.length toks →
      TextWF (toks.foldl (tokStep stops) s) := by
  intro toks
  induction toks with
  | nil => intro s hs _; exact hs
  | cons tok rest ih =>
      intro s hs hoffs
      obtain ⟨h1, h2⟩ := hoffs
      simp only [List.foldl_cons]
      apply ih
      · exact inv_step hs h1
      · rw [tokStep_tokens_length]
        exact h2

/-- Every constructed text satisfies the Term Index invariant. -/
theorem buildText_inv (stem : String → String) (stops ws : List String) :
    TextWF (buildText stem stops ws) := by
  unfold buildText utilsTokenize
  exact build_inv_aux stops _ ⟨[], []⟩ inv_empty (offsetsFrom_utilsTokenize stem ws 0)

/-- C2: for every input text, after construction every offset stored in
the Term Index under a term T indexes a non-sentinel token of the token
sequence whose normalized (stemmed) form equals T, each term's offset
list is strictly ascending, and the key order of the index reflects each
term's first occurrence in the text (heads of the offset lists are
strictly increasing along the index). -/
theorem term_index_invariant (stem : String → String) (stops ws : List String)
    (p : String × List ℕ) (hp : p ∈ (buildText stem stops ws).terms) :
    p.2.Chain' (· < ·) ∧
    (∀ o ∈ p.2, ∃ tok : Token,
      (buildText stem stops ws).tokens[o]? = some (some tok) ∧ tok.stemmed = p.1) ∧
    (buildText stem stops ws).terms.Pairwise (fun q r => q.2.headI < r.2.headI) := by
  have h := buildText_inv stem stops ws
  exact ⟨h.ascending p hp, h.maps p hp, h.firstOcc⟩

/-- Witness for `term_index_invariant` at a concrete text and index entry. -/
theorem term_index_invariant_witness :
    (("b", [1, 3]) ∈ (buildText stem0 stops0 words1).terms) ∧
    (([1, 3] : List ℕ).Chain' (· < ·) ∧
      (∀ o ∈ ([1, 3] : List ℕ), ∃ tok : Token,
        (buildText stem0 stops0 words1).tokens[o]? = some (some tok) ∧ tok.stemmed = "b") ∧
      (buildText stem0 stops0 words1).terms.Pairwise (fun q r => q.2.headI < r.2.headI)) :=
  ⟨by decide, term_index_invariant stem0 stops0 words1 ("b", [1, 3]) (by decide)⟩

/-! ## Frequency analysis -/

/-- Modelled from the spec: `textplot.utils.sort_dict` is not under
`src/`.  Per §4.3 and the design notes it sorts a mapping by descending
value with a stable, deterministic tie-break: pairs with equal values
keep their insertion order (Python's stable `sorted` with
`reverse=True`).  `insDesc` inserts a pair after every pair whose value
is at least as large. -/
def insDesc {α β : Type _} [LinearOrder β] (p : α × β) : List (α × β) → List (α × β)
  | [] => [p]
  | q :: rest => if p.2 ≤ q.2 then q :: insDesc p rest else p :: q :: rest

/-- Modelled from the spec: `textplot.utils.sort_dict`, a stable sort of
the mapping's pairs by descending value (insertion sort, earlier pairs
inserted first). -/
def sortDict {α β : Type _} [LinearOrder β] (l : List (α × β)) : List (α × β) :=
  l.foldl (fun acc p => insDesc p acc) []

lemma insDesc_perm {α β : Type _} [LinearOrder β] (p : α × β) (l : List (α × β)) :
    List.Perm (insDesc p l) (p :: l) := by
  induction l with
  | nil => rfl
  | cons q rest ih =>
      unfold insDesc
      by_cases hle : p.2 ≤ q.2
      · rw [if_pos hle]
        exact (ih.cons q).trans (List.Perm.swap p q rest)
      · rw [if_neg hle]

lemma sortDict_perm_aux {α β : Type _} [LinearOrder β] :
    ∀ (l acc : List (α × β)), List.Perm (l.foldl (fun acc p => insDesc p acc) acc) (l ++ acc) := by
  intro l
  induction l with
  | nil => intro acc; rfl
  | cons a rest ih =>
      intro acc
      simp only [List.foldl_cons, List.cons_append]
      exact (ih (insDesc a acc)).trans
        (((insDesc_perm a acc).append_left rest).trans List.perm_middle)

lemma sortDict_perm {α β : Type _} [LinearOrder β] (l : List (α × β)) :
    List.Perm (sortDict l) l := by
  have := sortDict_perm_aux l []
  simpa [sortDict] using this

lemma mem_insDesc {α β : Type _} [LinearOrder β] {p r : α × β} {l : List (α × β)} :
    r ∈ insDesc p l ↔ r = p ∨ r ∈ l := by
  rw [(insDesc_perm p l).mem_iff]
  exact List.mem_cons

lemma insDesc_sorted {α β : Type _} [LinearOrder β] {p : α × β} {l : List (α × β)}
    (h : l.Pairwise (fun x y => y.2 ≤ x.2)) :
    (insDesc p l).Pairwise (fun x y => y.2 ≤ x.2) := by
  induction l with
  | nil => simp [insDesc]
  | cons q rest ih =>
      rw [List.pairwise_cons] at h
      obtain ⟨hq, hrest⟩ := h
      unfold insDesc
      by_cases hle : p.2 ≤ q.2
      · rw [if_pos hle]
        rw [List.pairwise_cons]
        refine ⟨?_, ih hrest⟩
        intro r hr
        rcases mem_insDesc.mp hr with hr | hr
        · subst hr; exact hle
        · exact hq r hr
      · rw [if_neg hle]
        rw [List.pairwise_cons]
        refine ⟨?_, List.pairwise_cons.mpr ⟨hq, hrest⟩⟩
        intro r hr
        rcases List.mem_cons.mp hr with hr | hr
        · subst hr; exact le_of_lt (lt_of_not_le hle)
        · exact le_trans (hq r hr) (le_of_lt (lt_of_not_le hle))

lemma sortDict_sorted_aux {α β : Type _} [LinearOrder β] :
    ∀ (l acc : List (α × β)), acc.Pairwise (fun x y => y.2 ≤ x.2) →
      (l.foldl (fun acc p => insDesc p acc) acc).Pairwise (fun x y => y.2 ≤ x.2) := by
  intro l
  induction l with
  | nil => intro acc h; exact h
  | cons a rest ih =>
      intro acc h
      simp only [List.foldl_cons]
      exact ih (insDesc a acc) (insDesc_sorted h)

lemma sortDict_sorted {α β : Type _} [LinearOrder β] (l : List (α × β)) :
    (sortDict l).Pairwise (fun x y => y.2 ≤ x.2) :=
  sortDict_sorted_aux l [] (by simp)

/-- `Text.term_counts` (text.py:96-107): the mapping from term to
occurrence count (offset-list length), sorted by descending count. -/
def term_counts (t : TextM) : List (String × ℕ) :=
  sortDict (t.terms.map (fun p => (p.1, p.2.length)))

/-- One bucket of `Text.term_count_buckets` (text.py:110-123): the terms
whose count equals `c`, in `term_counts` order. -/
def countBucket (t : TextM) (c : ℕ) : List String :=
  ((term_counts t).filter (fun p => p.2 == c)).map Prod.fst

/-- Python's `list[:depth]` slice for an `int` argument: a nonnegative
`depth` takes the first `depth` elements; a negative `depth` silently
drops the last `-depth` elements. -/
def pySlice {α : Type _} (depth : ℤ) (l : List α) : List α :=
  if depth < 0 then l.take (l.length - (-depth).toNat) else l.take depth.toNat

/-- `Text.most_frequent_terms` (text.py:126-150): take the first `depth`
terms of the descending count list, read off the count of the last taken
term (`[-1]` on the empty slice raises `IndexError`, e.g. for
`depth = 0`), and merge in the whole bucket of terms sharing that
count. -/
def most_frequent_terms (t : TextM) (depth : ℤ) : Except PyErr (Finset String) :=
  let counts := term_counts t
  match (pySlice depth (counts.map Prod.snd)).getLast? with
  | none => .error .indexError
  | some end_count =>
      .ok ((pySlice depth (counts.map Prod.fst)).toFinset ∪ (countBucket t end_count).toFinset)

deriving instance DecidableEq for Except

example : term_counts text1 = [("b", 2), ("c", 1), ("d", 1)] := by decide
example : most_frequent_terms text1 1 = .ok {"b"} := by decide
example : most_frequent_terms text1 2 = .ok {"b", "c", "d"} := by decide
example : most_frequent_terms text1 0 = .error .indexError := by decide
example : most_frequent_terms text1 (-1) = .ok {"b", "c", "d"} := by decide

/-! ## Association list lookup lemmas -/

lemma assocLookup_eq_none_iff {κ β : Type _} [DecidableEq κ] {l : List (κ × β)} {k : κ} :
    assocLookup l k = none ↔ k ∉ l.map Prod.fst := by
  induction l with
  | nil => simp [assocLookup]
  | cons p rest ih =>
      unfold assocLookup
      by_cases hk : p.1 = k
      · simp [hk]
      · simp only [if_neg hk, List.map_cons, List.mem_cons, ih]
        constructor
        · intro h hh
          rcases hh with hh | hh
          · exact hk hh.symm
          · exact h hh
        · intro h
          exact fun hh => h (Or.inr hh)

lemma mem_of_assocLookup {κ β : Type _} [DecidableEq κ] {l : List (κ × β)} {k : κ} {v : β}
    (h : assocLookup l k = some v) : (k, v) ∈ l := by
  induction l with
  | nil => simp [assocLookup] at h
  | cons p rest ih =>
      unfold assocLookup at h
      by_cases hk : p.1 = k
      · rw [if_pos hk] at h
        have hv : p.2 = v := Option.some.inj h
        exact List.mem_cons.mpr (Or.inl (Prod.ext hk.symm hv.symm))
      · rw [if_neg hk] at h
        exact List.mem_cons_of_mem _ (ih h)

lemma assocLookup_of_mem_nodup {κ β : Type _} [DecidableEq κ] {l : List (κ × β)} {k : κ} {v : β}
    (hnd : (l.map Prod.fst).Nodup) (h : (k, v) ∈ l) : assocLookup l k = some v := by
  induction l with
  | nil => simp at h
  | cons p rest ih =>
      rw [List.map_cons, List.nodup_cons] at hnd
      rcases List.mem_cons.mp h with h | h
      · subst h
        simp [assocLookup]
      · unfold assocLookup
        have hk : p.1 ≠ k := by
          intro hh
          exact hnd.1 (hh ▸ List.mem_map_of_mem Prod.fst h)
        rw [if_neg hk]
        exact ih hnd.2 h

/-! ## Characterization of `most_frequent_terms` -/

lemma term_counts_perm (t : TextM) :
    List.Perm (term_counts t) (t.terms.map (fun p => (p.1, p.2.length))) :=
  sortDict_perm _

lemma term_counts_keys_perm (t : TextM) :
    List.Perm ((term_counts t).map Prod.fst) (t.terms.map Prod.fst) := by
  have h := (term_counts_perm t).map Prod.fst
  rw [List.map_map] at h
  exact h

lemma countOf_eq_of_mem_counts {t : TextM} (hnd : (t.terms.map Prod.fst).Nodup)
    {k : String} {c : ℕ} (h : (k, c) ∈ term_counts t) : countOf t k = c := by
  have hL := (term_counts_perm t).mem_iff.mp h
  obtain ⟨p, hp, hpe⟩ := List.mem_map.mp hL
  obtain ⟨h1, h2⟩ := Prod.mk.inj hpe
  have : lookupTerm t k = some p.2 := by
    apply assocLookup_of_mem_nodup hnd
    rw [← h1]
    exact hp
  simp [countOf, this, h2]

lemma mem_counts_of_mem_keys {t : TextM} {k : String}
    (h : k ∈ t.terms.map Prod.fst) : ∃ c : ℕ, (k, c) ∈ term_counts t := by
  obtain ⟨p, hp, hpe⟩ := List.mem_map.mp h
  refine ⟨p.2.length, ?_⟩
  apply (term_counts_perm t).mem_iff.mpr
  apply List.mem_map.mpr
  exact ⟨p, hp, by rw [hpe]⟩

lemma pairwise_le_getLast {A : List (String × ℕ)}
    (h : A.Pairwise (fun x y => y.2 ≤ x.2)) {e : String × ℕ}
    (he : A.getLast? = some e) : ∀ p ∈ A, e.2 ≤ p.2 := by
  induction A with
  | nil => simp at he
  | cons a rest ih =>
      rw [List.pairwise_cons] at h
      cases hr : rest with
      | nil =>
          subst hr
          have : a = e := by simpa using he
          subst this
          intro p hp
          have : p = a := by simpa using hp
          subst this
          exact le_refl _
      | cons b rest2 =>
          subst hr
          rw [List.getLast?_cons_cons] at he
          intro p hp
          rcases List.mem_cons.mp hp with hp | hp
          · subst hp
            exact h.1 e (mem_of_getLast?_eq he)
          · exact ih h.2 he p hp

/-- On a descending-sorted pair list, the last element of the first
`dt`-slice is a minimum of the slice and dominates everything dropped. -/
lemma sorted_take_last {cs : List (String × ℕ)} {dt : ℕ}
    (hs : cs.Pairwise (fun x y => y.2 ≤ x.2)) (hne : cs ≠ []) (hdt : 1 ≤ dt) :
    ∃ pe, (cs.take dt).getLast? = some pe ∧ pe ∈ cs.take dt ∧
      (∀ p ∈ cs.take dt, pe.2 ≤ p.2) ∧ (∀ q ∈ cs.drop dt, q.2 ≤ pe.2) := by
  have hAne : cs.take dt ≠ [] := by
    intro hcon
    rcases List.take_eq_nil_iff.mp hcon with h | h
    · omega
    · exact hne h
  obtain ⟨pe, hpe⟩ : ∃ pe, (cs.take dt).getLast? = some pe := by
    rw [List.getLast?_eq_getLast _ hAne]
    exact ⟨_, rfl⟩
  have hmem : pe ∈ cs.take dt := mem_of_getLast?_eq (by rw [hpe]; rfl)
  have hsortA : (cs.take dt).Pairwise (fun x y => y.2 ≤ x.2) :=
    hs.sublist (List.take_sublist dt cs)
  have hsplit := hs
  rw [← List.take_append_drop dt cs, List.pairwise_append] at hsplit
  refine ⟨pe, hpe, hmem, pairwise_le_getLast hsortA hpe, ?_⟩
  intro q hq
  exact hsplit.2.2 pe hmem q hq

set_option maxHeartbeats 1000000 in
/-- The general characterization of `most_frequent_terms` on a text with
distinct index keys: the call succeeds, the end count is the count of
the last term of the depth slice, and the returned set is exactly the
set of indexed terms whose count is at least that end count (so it is
the top-`depth` terms together with the whole tied bucket). -/
lemma mft_characterize (t : TextM) (depth : ℤ) (hnd : (t.terms.map Prod.fst).Nodup)
    (hne : t.terms ≠ []) (hd : 1 ≤ depth) :
    ∃ (S : Finset String) (end_count : ℕ),
      most_frequent_terms t depth = .ok S ∧
      (pySlice depth ((term_counts t).map Prod.snd)).getLast? = some end_count ∧
      (∀ k ∈ S, k ∈ t.terms.map Prod.fst) ∧
      (∀ k ∈ S, end_count ≤ countOf t k) ∧
      (∃ k ∈ S, countOf t k = end_count) ∧
      (∀ k ∈ t.terms.map Prod.fst, end_count ≤ countOf t k → k ∈ S) ∧
      ((t.terms.length : ℤ) ≤ depth → ∀ k ∈ t.terms.map Prod.fst, k ∈ S) := by
  have hcsne : term_counts t ≠ [] := by
    intro hcon
    have := (term_counts_perm t).length_eq
    rw [hcon] at this
    simp only [List.length_nil, List.length_map] at this
    exact hne (List.length_eq_zero.mp this.symm)
  have hdt1 : 1 ≤ depth.toNat := by omega
  have hslice : ∀ (l : List ℕ), pySlice depth l = l.take depth.toNat := by
    intro l
    rw [pySlice, if_neg (by omega)]
  have hsliceS : ∀ (l : List String), pySlice depth l = l.take depth.toNat := by
    intro l
    rw [pySlice, if_neg (by omega)]
  have hsorted : (term_counts t).Pairwise (fun x y => y.2 ≤ x.2) := sortDict_sorted _
  obtain ⟨pe, hpe, hpemem, hpemin, hpedom⟩ :=
    sorted_take_last hsorted hcsne hdt1
  have hpecs : pe ∈ term_counts t := List.mem_of_mem_take hpemem
  have hcount : ∀ p : String × ℕ, p ∈ term_counts t → countOf t p.1 = p.2 := by
    intro p hp
    exact countOf_eq_of_mem_counts hnd hp
  have hlast : (pySlice depth ((term_counts t).map Prod.snd)).getLast? = some pe.2 := by
    rw [hslice, ← List.map_take, List.getLast?_map, hpe]
    rfl
  refine ⟨(pySlice depth ((term_counts t).map Prod.fst)).toFinset ∪
      (countBucket t pe.2).toFinset, pe.2, ?_, hlast, ?_, ?_, ?_, ?_, ?_⟩
  · simp only [most_frequent_terms]
    rw [hlast]
  · -- S only contains indexed terms
    intro k hk
    rw [Finset.mem_union] at hk
    have hkeys : k ∈ (term_counts t).map Prod.fst → k ∈ t.terms.map Prod.fst := by
      intro h
      exact (term_counts_keys_perm t).mem_iff.mp h
    rcases hk with hk | hk
    · rw [hsliceS, List.mem_toFinset] at hk
      exact hkeys (List.mem_of_mem_take hk)
    · rw [List.mem_toFinset, countBucket] at hk
      obtain ⟨p, hp, hpeq⟩ := List.mem_map.mp hk
      have hp2 := List.mem_of_mem_filter hp
      apply hkeys
      rw [← hpeq]
      exact List.mem_map_of_mem Prod.fst hp2
  · -- everything in S has count at least pe.2
    intro k hk
    rw [Finset.mem_union] at hk
    rcases hk with hk | hk
    · rw [hsliceS, List.mem_toFinset, ← List.map_take] at hk
      obtain ⟨p, hp, hpeq⟩ := List.mem_map.mp hk
      have := hpemin p hp
      rw [← hpeq, hcount p (List.mem_of_mem_take hp)]
      exact this
    · rw [List.mem_toFinset, countBucket] at hk
      obtain ⟨p, hp, hpeq⟩ := List.mem_map.mp hk
      rw [List.mem_filter] at hp
      have hpc : p.2 = pe.2 := by simpa using hp.2
      rw [← hpeq, hcount p hp.1, hpc]
  · -- the minimum is attained at the last sliced term
    refine ⟨pe.1, ?_, hcount pe hpecs⟩
    apply Finset.mem_union_left
    rw [hsliceS, List.mem_toFinset, ← List.map_take]
    exact List.mem_map_of_mem Prod.fst hpemem
  · -- completeness: no term with count at least pe.2 is left out
    intro k hkmem hkcnt
    obtain ⟨c, hc⟩ := mem_counts_of_mem_keys hkmem
    have hcc : countOf t k = c := countOf_eq_of_mem_counts hnd hc
    have hsplitmem : (k, c) ∈ (term_counts t).take depth.toNat ∨
        (k, c) ∈ (term_counts t).drop depth.toNat := by
      rw [← List.mem_append, List.take_append_drop]
      exact hc
    rcases hsplitmem with hm | hm
    · apply Finset.mem_union_left
      rw [hsliceS, List.mem_toFinset, ← List.map_take]
      exact List.mem_map_of_mem Prod.fst hm
    · have hle : c ≤ pe.2 := hpedom (k, c) hm
      have hceq : c = pe.2 := by omega
      apply Finset.mem_union_right
      rw [List.mem_toFinset, countBucket]
      apply List.mem_map.mpr
      refine ⟨(k, c), ?_, rfl⟩
      rw [List.mem_filter]
      exact ⟨hc, by simpa using hceq⟩
  · -- depth at least the number of distinct terms: all terms returned
    intro hdeep k hk
    obtain ⟨c, hc⟩ := mem_counts_of_mem_keys hk
    apply Finset.mem_union_left
    rw [hsliceS, List.mem_toFinset, ← List.map_take]
    refine List.mem_map.mpr ⟨(k, c), ?_, rfl⟩
    have hlendt : (term_counts t).length ≤ depth.toNat := by
      have h1 := (term_counts_perm t).length_eq
      rw [List.length_map] at h1
      omega
    rw [List.take_of_length_le hlendt]
    exact hc

/-- C3: for every text with at least one indexed term and every depth at
least 1, `most_frequent_terms depth` returns the union of the top
`depth` terms by count and every other term sharing the exact count of
the depth-th ranked term: the returned set contains only indexed terms,
its minimum per-term count equals the count of the depth-th ranked term
(the last value of the depth slice of the descending count list), that
minimum is attained, no term whose count reaches it is omitted (so a
tied-count group is never split), and depth at least the number of
distinct terms returns all terms. -/
theorem most_frequent_terms_spec (stem : String → String) (stops ws : List String)
    (depth : ℤ) (hne : (buildText stem stops ws).terms ≠ []) (hd : 1 ≤ depth) :
    ∃ (S : Finset String) (end_count : ℕ),
      most_frequent_terms (buildText stem stops ws) depth = .ok S ∧
      (pySlice depth ((term_counts (buildText stem stops ws)).map Prod.snd)).getLast? =
        some end_count ∧
      (∀ k ∈ S, k ∈ (buildText stem stops ws).terms.map Prod.fst) ∧
      (∀ k ∈ S, end_count ≤ countOf (buildText stem stops ws) k) ∧
      (∃ k ∈ S, countOf (buildText stem stops ws) k = end_count) ∧
      (∀ k ∈ (buildText stem stops ws).terms.map Prod.fst,
        end_count ≤ countOf (buildText stem stops ws) k → k ∈ S) ∧
      (((buildText stem stops ws).terms.length : ℤ) ≤ depth →
        ∀ k ∈ (buildText stem stops ws).terms.map Prod.fst, k ∈ S) :=
  mft_characterize (buildText stem stops ws) depth
    (buildText_inv stem stops ws).keysNodup hne hd

/-- Witness for `most_frequent_terms_spec` at the concrete text with
counts b:2, c:1, d:1 and depth 2. -/
theorem most_frequent_terms_spec_witness :
    ((buildText stem0 stops0 words1).terms ≠ [] ∧ (1:ℤ) ≤ 2) ∧
    (∃ (S : Finset String) (end_count : ℕ),
      most_frequent_terms (buildText stem0 stops0 words1) 2 = .ok S ∧
      (pySlice 2 ((term_counts (buildText stem0 stops0 words1)).map Prod.snd)).getLast? =
        some end_count ∧
      (∀ k ∈ S, k ∈ (buildText stem0 stops0 words1).terms.map Prod.fst) ∧
      (∀ k ∈ S, end_count ≤ countOf (buildText stem0 stops0 words1) k) ∧
      (∃ k ∈ S, countOf (buildText stem0 stops0 words1) k = end_count) ∧
      (∀ k ∈ (buildText stem0 stops0 words1).terms.map Prod.fst,
        end_count ≤ countOf (buildText stem0 stops0 words1) k → k ∈ S) ∧
      (((buildText stem0 stops0 words1).terms.length : ℤ) ≤ 2 →
        ∀ k ∈ (buildText stem0 stops0 words1).terms.map Prod.fst, k ∈ S)) :=
  ⟨⟨by decide, by norm_num⟩,
    most_frequent_terms_spec stem0 stops0 words1 2 (by decide) (by norm_num)⟩

/-! ## Kernel density estimation (text.py:192-219)

`Text.kde` fits `sklearn.neighbors.KernelDensity` on the term's offsets,
scores `np.linspace(0, len(self.tokens), samples)` and returns
`np.exp(scores) * (len(self.tokens) / samples)`.  `score_samples`
returns the logarithm of the fitted density, and `np.exp` converts it
back to the density value itself (with the IEEE convention
`exp(-inf) = 0` at points of zero density), so the composition is
modelled by the density directly. -/

/-- The kernel shapes accepted by sklearn's `KernelDensity`. -/
inductive Kernel where
  | gaussian
  | tophat
  | epanechnikov
  | exponential
  | linear
  | cosine
deriving DecidableEq

/-- The normalized kernel profiles of sklearn's `KernelDensity` (each
integrates to 1 over the real line). -/
noncomputable def kernelFn : Kernel → ℝ → ℝ
  | .gaussian, u => Real.exp (-(u ^ 2) / 2) / Real.sqrt (2 * Real.pi)
  | .tophat, u => if |u| ≤ 1 then 1 / 2 else 0
  | .epanechnikov, u => if |u| ≤ 1 then 3 / 4 * (1 - u ^ 2) else 0
  | .exponential, u => Real.exp (-|u|) / 2
  | .linear, u => if |u| ≤ 1 then 1 - |u| else 0
  | .cosine, u => if |u| ≤ 1 then Real.pi / 4 * Real.cos (Real.pi * u / 2) else 0

/-- The density fitted on the offsets with bandwidth `bw`, evaluated at
`x`: the average of the bandwidth-scaled kernels centered at the
offsets. -/
noncomputable def densityAt (offs : List ℕ) (bw : ℤ) (kern : Kernel) (x : ℝ) : ℝ :=
  (offs.map (fun (o : ℕ) => kernelFn kern ((x - (o : ℝ)) / (bw : ℝ)))).sum /
    ((offs.length : ℝ) * (bw : ℝ))

/-- `np.linspace(0, N, m)`: `m` evenly spaced values from 0 to `N`
inclusive (for `m = 1` numpy returns `[0.]`, matched here by the
division-by-zero convention). -/
noncomputable def linspace (N : ℝ) (m : ℕ) : List ℝ :=
  (List.range m).map (fun (j : ℕ) => (j : ℝ) * N / ((m : ℝ) - 1))

/-- The sampled density curve of `Text.kde`: the density at the sample
grid, rescaled by `len(self.tokens) / samples`. -/
noncomputable def kdeCurve (t : TextM) (offs : List ℕ) (bw : ℤ) (samples : ℕ)
    (kern : Kernel) : List ℝ :=
  (linspace (t.tokens.length : ℝ) samples).map
    (fun x => densityAt offs bw kern x * ((t.tokens.length : ℝ) / (samples : ℝ)))

/-- `Text.kde` (text.py:192-219).  `self.terms[term]` raises `KeyError`
for an absent term; `KernelDensity` rejects a non-positive bandwidth
with `ValueError`; `score_samples` rejects the empty sample array
produced by `samples = 0` with `ValueError`. -/
noncomputable def kde (t : TextM) (term : String) (bw : ℤ) (samples : ℕ)
    (kern : Kernel) : Except PyErr (List ℝ) :=
  match lookupTerm t term with
  | none => .error .keyError
  | some offs =>
      if bw ≤ 0 then .error .valueError
      else if samples = 0 then .error .valueError
      else .ok (kdeCurve t offs bw samples kern)

/-! ## Pairwise scoring (text.py:222-278) -/

/-- `np.trapz` with unit spacing: the trapezoidal sum of consecutive
averages. -/
noncomputable def trapz : List ℝ → ℝ
  | [] => 0
  | [_] => 0
  | a :: b :: rest => (a + b) / 2 + trapz (b :: rest)

/-- Dot product of two sample vectors (`scipy` works on equal-length
curves; `zipWith` pairs the samples). -/
noncomputable def dotL (u v : List ℝ) : ℝ := (List.zipWith (· * ·) u v).sum

/-- `scipy.spatial.distance.cosine`: one minus the cosine similarity. -/
noncomputable def cosineDist (u v : List ℝ) : ℝ :=
  1 - dotL u v / (Real.sqrt (dotL u u) * Real.sqrt (dotL v v))

/-- `scipy.spatial.distance.braycurtis`: sum of absolute differences
over sum of absolute sums. -/
noncomputable def braycurtisDist (u v : List ℝ) : ℝ :=
  (List.zipWith (fun a b => |a - b|) u v).sum / (List.zipWith (fun a b => |a + b|) u v).sum

/-- `Text.score_intersect` (text.py:222-240): the trapezoidal integral
of the pointwise minimum of the two curves. -/
noncomputable def score_intersect (t : TextM) (term1 term2 : String) (bw : ℤ)
    (samples : ℕ) (kern : Kernel) : Except PyErr ℝ :=
  match kde t term1 bw samples kern with
  | .error e => .error e
  | .ok k1 =>
      match kde t term2 bw samples kern with
      | .error e => .error e
      | .ok k2 => .ok (trapz (List.zipWith min k1 k2))

/-- `Text.score_cosine` (text.py:243-259): `1 - distance.cosine`. -/
noncomputable def score_cosine (t : TextM) (term1 term2 : String) (bw : ℤ)
    (samples : ℕ) (kern : Kernel) : Except PyErr ℝ :=
  match kde t term1 bw samples kern with
  | .error e => .error e
  | .ok k1 =>
      match kde t term2 bw samples kern with
      | .error e => .error e
      | .ok k2 => .ok (1 - cosineDist k1 k2)

/-- `Text.score_braycurtis` (text.py:262-278): `1 - distance.braycurtis`. -/
noncomputable def score_braycurtis (t : TextM) (term1 term2 : String) (bw : ℤ)
    (samples : ℕ) (kern : Kernel) : Except PyErr ℝ :=
  match kde t term1 bw samples kern with
  | .error e => .error e
  | .ok k1 =>
      match kde t term2 bw samples kern with
      | .error e => .error e
      | .ok k2 => .ok (1 - braycurtisDist k1 k2)

/-! ## Anchored scan (text.py:281-300) -/

/-- `getattr(self, 'score_' + method)`: only the three scoring methods
exist as `score_*` attributes; any other name raises
`AttributeError`. -/
noncomputable def methodFn (method : String) :
    Option (TextM → String → String → ℤ → ℕ → Kernel → Except PyErr ℝ) :=
  if method = "intersect" then some score_intersect
  else if method = "cosine" then some score_cosine
  else if method = "braycurtis" then some score_braycurtis
  else none

/-- The loop of `Text.anchored_scores`: score the anchor against each
indexed term in index order, stopping at the first raised exception. -/
noncomputable def collectScores
    (f : TextM → String → String → ℤ → ℕ → Kernel → Except PyErr ℝ)
    (t : TextM) (anchor : String) (bw : ℤ) (samples : ℕ) (kern : Kernel) :
    List (String × List ℕ) → Except PyErr (List (String × ℝ))
  | [] => .ok []
  | q :: rest =>
      match f t anchor q.1 bw samples kern with
      | .error e => .error e
      | .ok s =>
          match collectScores f t anchor bw samples kern rest with
          | .error e => .error e
          | .ok ps => .ok ((q.1, s) :: ps)

/-- `Text.anchored_scores` (text.py:281-300): resolve the evaluator by
name, score the anchor against every indexed term, and return the pairs
sorted by descending score. -/
noncomputable def anchored_scores (t : TextM) (anchor method : String) (bw : ℤ)
    (samples : ℕ) (kern : Kernel) : Except PyErr (List (String × ℝ)) :=
  match methodFn method with
  | none => .error .attrError
  | some f => Except.map sortDict (collectScores f t anchor bw samples kern t.terms)

/-! ## Shape of the sampled density curve -/

lemma kernelFn_nonneg (kern : Kernel) (u : ℝ) : 0 ≤ kernelFn kern u := by
  cases kern with
  | gaussian =>
      exact div_nonneg (Real.exp_pos _).le (Real.sqrt_nonneg _)
  | tophat =>
      rw [kernelFn]
      split <;> norm_num
  | epanechnikov =>
      rw [kernelFn]
      split
      · rename_i h
        have hu : u ^ 2 ≤ 1 := by nlinarith [sq_abs u, abs_nonneg u]
        nlinarith
      · exact le_refl 0
  | exponential =>
      exact div_nonneg (Real.exp_pos _).le (by norm_num)
  | linear =>
      rw [kernelFn]
      split
      · rename_i h
        have := abs_nonneg u
        linarith
      · exact le_refl 0
  | cosine =>
      rw [kernelFn]
      split
      · rename_i h
        apply mul_nonneg (by positivity)
        apply Real.cos_nonneg_of_mem_Icc
        rw [abs_le] at h
        constructor
        · nlinarith [Real.pi_pos]
        · nlinarith [Real.pi_pos]
      · exact le_refl 0

lemma densityAt_nonneg (offs : List ℕ) {bw : ℤ} (hbw : 0 < bw) (kern : Kernel) (x : ℝ) :
    0 ≤ densityAt offs bw kern x := by
  apply div_nonneg
  · apply List.sum_nonneg
    intro y hy
    obtain ⟨o, _, rfl⟩ := List.mem_map.mp hy
    exact kernelFn_nonneg kern _
  · apply mul_nonneg (Nat.cast_nonneg _)
    exact_mod_cast hbw.le

lemma linspace_length (N : ℝ) (m : ℕ) : (linspace N m).length = m := by
  simp [linspace]

lemma linspace_getElem? (N : ℝ) {m j : ℕ} (h : j < m) :
    (linspace N m)[j]? = some ((j : ℝ) * N / ((m : ℝ) - 1)) := by
  rw [linspace, List.getElem?_map, List.getElem?_range h]
  rfl

lemma kdeCurve_length (t : TextM) (offs : List ℕ) (bw : ℤ) (samples : ℕ) (kern : Kernel) :
    (kdeCurve t offs bw samples kern).length = samples := by
  simp [kdeCurve, linspace_length]

lemma kdeCurve_nonneg (t : TextM) (offs : List ℕ) {bw : ℤ} (hbw : 0 < bw)
    (samples : ℕ) (kern : Kernel) :
    ∀ v ∈ kdeCurve t offs bw samples kern, 0 ≤ v := by
  intro v hv
  obtain ⟨x, _, rfl⟩ := List.mem_map.mp hv
  exact mul_nonneg (densityAt_nonneg offs hbw kern x) (by positivity)

lemma kde_ok {t : TextM} {term : String} {offs : List ℕ} {bw : ℤ} {samples : ℕ}
    {kern : Kernel} (hterm : lookupTerm t term = some offs) (hbw : 0 < bw)
    (hs : samples ≠ 0) :
    kde t term bw samples kern = .ok (kdeCurve t offs bw samples kern) := by
  simp only [kde, hterm]
  rw [if_neg (by omega), if_neg hs]

/-- C1: for every term present in the Term Index and every bandwidth
> 0, sample count at least 1 and kernel shape, `kde` succeeds and
returns the ordered sequence obtained by evaluating the fitted kernel
density at `samples` evenly spaced points spanning `[0, totalTokenCount]`
inclusive (the log-density outputs converted back to linear scale) with
each sampled value rescaled by `totalTokenCount / samples`; the result
has exactly `samples` entries, all non-negative, and the sample grid
starts at 0, ends at `totalTokenCount` (for at least two samples), with
constant consecutive spacing. -/
theorem kde_spec (stem : String → String) (stops ws : List String) (term : String)
    (bw : ℤ) (samples : ℕ) (kern : Kernel) (offs : List ℕ)
    (hterm : lookupTerm (buildText stem stops ws) term = some offs)
    (hbw : 0 < bw) (hs : 1 ≤ samples) :
    kde (buildText stem stops ws) term bw samples kern =
      .ok ((linspace (((buildText stem stops ws).tokens.length : ℕ) : ℝ) samples).map
        (fun x => densityAt offs bw kern x *
          ((((buildText stem stops ws).tokens.length : ℕ) : ℝ) / (samples : ℝ)))) ∧
    (kdeCurve (buildText stem stops ws) offs bw samples kern).length = samples ∧
    (∀ v ∈ kdeCurve (buildText stem stops ws) offs bw samples kern, 0 ≤ v) ∧
    (linspace (((buildText stem stops ws).tokens.length : ℕ) : ℝ) samples)[0]? =
      some 0 ∧
    (2 ≤ samples →
      (linspace (((buildText stem stops ws).tokens.length : ℕ) : ℝ) samples)[samples - 1]? =
        some (((buildText stem stops ws).tokens.length : ℕ) : ℝ)) ∧
    (∀ j : ℕ, j + 1 < samples → ∃ a b : ℝ,
      (linspace (((buildText stem stops ws).tokens.length : ℕ) : ℝ) samples)[j]? = some a ∧
      (linspace (((buildText stem stops ws).tokens.length : ℕ) : ℝ) samples)[j + 1]? = some b ∧
      b - a = (((buildText stem stops ws).tokens.length : ℕ) : ℝ) / ((samples : ℝ) - 1)) := by
  refine ⟨kde_ok hterm hbw (by omega), kdeCurve_length _ _ _ _ _,
    kdeCurve_nonneg _ _ hbw _ _, ?_, ?_, ?_⟩
  · rw [linspace_getElem? _ (by omega)]
    norm_num
  · intro h2
    rw [linspace_getElem? _ (by omega)]
    have hcast : ((samples - 1 : ℕ) : ℝ) = (samples : ℝ) - 1 := by
      push_cast [Nat.cast_sub (by omega : 1 ≤ samples)]
      ring
    rw [hcast]
    have hne : (samples : ℝ) - 1 ≠ 0 := by
      have : (2 : ℝ) ≤ (samples : ℝ) := by exact_mod_cast h2
      intro hcon
      nlinarith
    rw [mul_comm, mul_div_assoc, div_self hne, mul_one]
  · intro j hj
    refine ⟨_, _, linspace_getElem? _ (by omega), linspace_getElem? _ (by omega), ?_⟩
    rw [div_sub_div_same]
    congr 1
    push_cast
    ring

/-- Witness for `kde_spec` at the concrete text, default bandwidth 2000,
1000 samples, gaussian kernel. -/
theorem kde_spec_witness :
    (lookupTerm (buildText stem0 stops0 words1) "b" = some [1, 3] ∧
      (0 : ℤ) < 2000 ∧ 1 ≤ 1000) ∧
    (kde (buildText stem0 stops0 words1) "b" 2000 1000 Kernel.gaussian =
      .ok ((linspace (((buildText stem0 stops0 words1).tokens.length : ℕ) : ℝ) 1000).map
        (fun x => densityAt [1, 3] 2000 Kernel.gaussian x *
          ((((buildText stem0 stops0 words1).tokens.length : ℕ) : ℝ) / (1000 : ℝ)))) ∧
    (kdeCurve (buildText stem0 stops0 words1) [1, 3] 2000 1000 Kernel.gaussian).length = 1000 ∧
    (∀ v ∈ kdeCurve (buildText stem0 stops0 words1) [1, 3] 2000 1000 Kernel.gaussian, 0 ≤ v) ∧
    (linspace (((buildText stem0 stops0 words1).tokens.length : ℕ) : ℝ) 1000)[0]? =
      some 0 ∧
    (2 ≤ 1000 →
      (linspace (((buildText stem0 stops0 words1).tokens.length : ℕ) : ℝ) 1000)[1000 - 1]? =
        some (((buildText stem0 stops0 words1).tokens.length : ℕ) : ℝ)) ∧
    (∀ j : ℕ, j + 1 < 1000 → ∃ a b : ℝ,
      (linspace (((buildText stem0 stops0 words1).tokens.length : ℕ) : ℝ) 1000)[j]? = some a ∧
      (linspace (((buildText stem0 stops0 words1).tokens.length : ℕ) : ℝ) 1000)[j + 1]? = some b ∧
      b - a = (((buildText stem0 stops0 words1).tokens.length : ℕ) : ℝ) / ((1000 : ℝ) - 1))) :=
  ⟨⟨by decide, by norm_num, by norm_num⟩,
    kde_spec stem0 stops0 words1 "b" 2000 1000 Kernel.gaussian [1, 3]
      (by decide) (by norm_num) (by norm_num)⟩

/-! ## Self-similarity of the scoring functions -/

lemma zipWith_min_self (v : List ℝ) : List.zipWith min v v = v := by
  induction v with
  | nil => rfl
  | cons a rest ih => simp [List.zipWith, ih]

lemma zipWith_abs_sub_self (v : List ℝ) :
    (List.zipWith (fun a b => |a - b|) v v).sum = 0 := by
  induction v with
  | nil => rfl
  | cons a rest ih => simp [List.zipWith, ih]

lemma dotL_self_eq (v : List ℝ) : dotL v v = (v.map (fun x => x ^ 2)).sum := by
  unfold dotL
  induction v with
  | nil => rfl
  | cons a rest ih =>
      simp only [List.zipWith_cons_cons, List.map_cons, List.sum_cons, ih]
      ring_nf

lemma dotL_self_pos {v : List ℝ} (hne : v ≠ []) (hpos : ∀ x ∈ v, 0 < x) :
    0 < dotL v v := by
  rw [dotL_self_eq]
  cases v with
  | nil => exact absurd rfl hne
  | cons a rest =>
      simp only [List.map_cons, List.sum_cons]
      have ha : 0 < a ^ 2 := pow_pos (hpos a (List.mem_cons_self _ _)) 2
      have hr : 0 ≤ (rest.map (fun x => x ^ 2)).sum := by
        apply List.sum_nonneg
        intro y hy
        obtain ⟨x, _, rfl⟩ := List.mem_map.mp hy
        positivity
      linarith

lemma cosineDist_self {v : List ℝ} (h : 0 < dotL v v) : cosineDist v v = 0 := by
  unfold cosineDist
  rw [Real.mul_self_sqrt h.le, div_self h.ne']
  ring

lemma braycurtisDist_self (v : List ℝ) : braycurtisDist v v = 0 := by
  unfold braycurtisDist
  rw [zipWith_abs_sub_self, zero_div]

lemma densityAt_gaussian_pos {offs : List ℕ} (hne : offs ≠ []) {bw : ℤ}
    (hbw : 0 < bw) (x : ℝ) : 0 < densityAt offs bw Kernel.gaussian x := by
  apply div_pos
  · apply List.sum_pos
    · intro y hy
      obtain ⟨o, _, rfl⟩ := List.mem_map.mp hy
      exact div_pos (Real.exp_pos _) (Real.sqrt_pos.mpr (by positivity))
    · simp only [ne_eq, List.map_eq_nil_iff]
      exact hne
  · apply mul_pos
    · exact_mod_cast List.length_pos.mpr hne
    · exact_mod_cast hbw

lemma kdeCurve_gaussian_pos {t : TextM} {offs : List ℕ} (hne : offs ≠ []) {bw : ℤ}
    (hbw : 0 < bw) {samples : ℕ} (hs : 1 ≤ samples) (htok : t.tokens ≠ []) :
    ∀ v ∈ kdeCurve t offs bw samples Kernel.gaussian, 0 < v := by
  intro v hv
  obtain ⟨x, _, rfl⟩ := List.mem_map.mp hv
  apply mul_pos (densityAt_gaussian_pos hne hbw x)
  apply div_pos
  · exact_mod_cast List.length_pos.mpr htok
  · exact_mod_cast hs

lemma kdeCurve_ne_nil {t : TextM} {offs : List ℕ} {bw : ℤ} {samples : ℕ} {kern : Kernel}
    (hs : 1 ≤ samples) : kdeCurve t offs bw samples kern ≠ [] := by
  intro hcon
  have := kdeCurve_length t offs bw samples kern
  rw [hcon] at this
  simp at this
  omega

lemma tokens_ne_nil_of_term {stem : String → String} {stops ws : List String}
    {term : String} {offs : List ℕ}
    (hterm : lookupTerm (buildText stem stops ws) term = some offs) :
    (buildText stem stops ws).tokens ≠ [] := by
  have hwf := buildText_inv stem stops ws
  have hmem : (term, offs) ∈ (buildText stem stops ws).terms := mem_of_assocLookup hterm
  have hoffs := hwf.nonempty _ hmem
  obtain ⟨tok, hget, _⟩ := hwf.maps _ hmem offs.headI (headI_mem_of_ne_nil hoffs)
  have hlt := (List.getElem?_eq_some.mp hget).1
  intro hcon
  rw [hcon] at hlt
  simp at hlt

/-- C4 (amended): for any term present in the Term Index (for the
default gaussian kernel, positive bandwidth, at least one sample),
`score_cosine(T, T)` and `score_braycurtis(T, T)` equal 1 exactly, and
`score_intersect(T, T)` equals the trapezoidal mass of T's own sampled
density curve, which is not in general close to 1 (see the
counterexample). -/
theorem self_similarity_amended (stem : String → String) (stops ws : List String)
    (term : String) (bw : ℤ) (samples : ℕ) (offs : List ℕ)
    (hterm : lookupTerm (buildText stem stops ws) term = some offs)
    (hbw : 0 < bw) (hs : 1 ≤ samples) :
    score_cosine (buildText stem stops ws) term term bw samples Kernel.gaussian = .ok 1 ∧
    score_braycurtis (buildText stem stops ws) term term bw samples Kernel.gaussian = .ok 1 ∧
    score_intersect (buildText stem stops ws) term term bw samples Kernel.gaussian =
      .ok (trapz (kdeCurve (buildText stem stops ws) offs bw samples Kernel.gaussian)) := by
  have hwf := buildText_inv stem stops ws
  have hmem : (term, offs) ∈ (buildText stem stops ws).terms := mem_of_assocLookup hterm
  have hoffs := hwf.nonempty _ hmem
  have htok := tokens_ne_nil_of_term hterm
  have hkde := @kde_ok (buildText stem stops ws) term offs bw samples Kernel.gaussian
    hterm hbw (by omega)
  have hpos := @kdeCurve_gaussian_pos (buildText stem stops ws) offs hoffs bw hbw
    samples hs htok
  have hneq := @kdeCurve_ne_nil (buildText stem stops ws) offs bw samples Kernel.gaussian hs
  refine ⟨?_, ?_, ?_⟩
  · simp only [score_cosine, hkde]
    rw [cosineDist_self (dotL_self_pos hneq hpos)]
    norm_num
  · simp only [score_braycurtis, hkde]
    rw [braycurtisDist_self]
    norm_num
  · simp only [score_intersect, hkde, zipWith_min_self]

/-- Witness for `self_similarity_amended` at the concrete text. -/
theorem self_similarity_amended_witness :
    (lookupTerm (buildText stem0 stops0 words1) "b" = some [1, 3] ∧
      (0 : ℤ) < 2000 ∧ 1 ≤ 1000) ∧
    (score_cosine (buildText stem0 stops0 words1) "b" "b" 2000 1000 Kernel.gaussian = .ok 1 ∧
    score_braycurtis (buildText stem0 stops0 words1) "b" "b" 2000 1000 Kernel.gaussian = .ok 1 ∧
    score_intersect (buildText stem0 stops0 words1) "b" "b" 2000 1000 Kernel.gaussian =
      .ok (trapz (kdeCurve (buildText stem0 stops0 words1) [1, 3] 2000 1000 Kernel.gaussian))) :=
  ⟨⟨by decide, by norm_num, by norm_num⟩,
    self_similarity_amended stem0 stops0 words1 "b" 2000 1000 [1, 3]
      (by decide) (by norm_num) (by norm_num)⟩

/-! ## The intersect self-score is far from 1 for large bandwidth -/

lemma sqrt_two_pi_ge_two : (2 : ℝ) ≤ Real.sqrt (2 * Real.pi) := by
  have h4 : (4 : ℝ) ≤ 2 * Real.pi := by nlinarith [Real.pi_gt_three]
  have h := Real.sqrt_le_sqrt h4
  calc (2 : ℝ) = Real.sqrt 4 := by
        rw [show (4 : ℝ) = 2 ^ 2 by norm_num, Real.sqrt_sq (by norm_num : (0 : ℝ) ≤ 2)]
    _ ≤ _ := h

lemma gaussian_le_half (u : ℝ) : kernelFn Kernel.gaussian u ≤ 1 / 2 := by
  rw [kernelFn]
  have hexp : Real.exp (-(u ^ 2) / 2) ≤ 1 := by
    apply Real.exp_le_one_iff.mpr
    nlinarith [sq_nonneg u]
  exact div_le_div (by norm_num) hexp (by norm_num) sqrt_two_pi_ge_two

lemma densityAt_gaussian_le {offs : List ℕ} (hne : offs ≠ []) {bw : ℤ} (hbw : 0 < bw)
    (x : ℝ) : densityAt offs bw Kernel.gaussian x ≤ 1 / (2 * (bw : ℝ)) := by
  unfold densityAt
  have hnpos : 0 < (offs.length : ℝ) := by exact_mod_cast List.length_pos.mpr hne
  have hbpos : 0 < (bw : ℝ) := by exact_mod_cast hbw
  have hsum : (offs.map (fun (o : ℕ) =>
      kernelFn Kernel.gaussian ((x - (o : ℝ)) / (bw : ℝ)))).sum ≤
      (offs.length : ℝ) * (1 / 2) := by
    have h := List.sum_le_card_nsmul
      (offs.map (fun (o : ℕ) => kernelFn Kernel.gaussian ((x - (o : ℝ)) / (bw : ℝ))))
      (1 / 2) ?_
    · rw [List.length_map] at h
      simpa [nsmul_eq_mul] using h
    · intro y hy
      obtain ⟨o, _, rfl⟩ := List.mem_map.mp hy
      exact gaussian_le_half _
  calc _ ≤ ((offs.length : ℝ) * (1 / 2)) / ((offs.length : ℝ) * (bw : ℝ)) := by
        apply div_le_div_of_nonneg_right hsum ?_ |>.trans (le_refl _)
        · positivity
    _ = 1 / (2 * (bw : ℝ)) := by
        field_simp
        ring

lemma trapz_cons_le (x : ℝ) (xs : List ℝ) (h : ∀ y ∈ x :: xs, 0 ≤ y) :
    trapz (x :: xs) ≤ x / 2 + xs.sum := by
  induction xs generalizing x with
  | nil =>
      have := h x (List.mem_cons_self _ _)
      simp only [trapz, List.sum_nil]
      linarith
  | cons b rest ih =>
      have hb : ∀ y ∈ b :: rest, 0 ≤ y := by
        intro y hy
        exact h y (List.mem_cons_of_mem _ hy)
      have := ih b hb
      simp only [trapz, List.sum_cons]
      have hbpos := h b (List.mem_cons_of_mem _ (List.mem_cons_self _ _))
      linarith

lemma trapz_le_sum {l : List ℝ} (h : ∀ x ∈ l, 0 ≤ x) : trapz l ≤ l.sum := by
  cases l with
  | nil => simp [trapz]
  | cons x xs =>
      have := trapz_cons_le x xs h
      have hx := h x (List.mem_cons_self _ _)
      rw [List.sum_cons]
      linarith

lemma sum_kdeCurve_gaussian_le (t : TextM) {offs : List ℕ} (hne : offs ≠ [])
    {bw : ℤ} (hbw : 0 < bw) (samples : ℕ) :
    (kdeCurve t offs bw samples Kernel.gaussian).sum ≤
      (t.tokens.length : ℝ) / (2 * (bw : ℝ)) := by
  rcases Nat.eq_zero_or_pos samples with hz | hpos
  · subst hz
    have : kdeCurve t offs bw 0 Kernel.gaussian = [] := by
      have := kdeCurve_length t offs bw 0 Kernel.gaussian
      exact List.length_eq_zero.mp this
    rw [this]
    simp only [List.sum_nil]
    positivity
  · have hbpos : 0 < (bw : ℝ) := by exact_mod_cast hbw
    have hBound : ∀ v ∈ kdeCurve t offs bw samples Kernel.gaussian,
        v ≤ (1 / (2 * (bw : ℝ))) * ((t.tokens.length : ℝ) / (samples : ℝ)) := by
      intro v hv
      obtain ⟨x, _, rfl⟩ := List.mem_map.mp hv
      apply mul_le_mul_of_nonneg_right (densityAt_gaussian_le hne hbw x)
      positivity
    have h := List.sum_le_card_nsmul _ _ hBound
    rw [kdeCurve_length] at h
    have hsne : (samples : ℝ) ≠ 0 := by
      have : 0 < (samples : ℝ) := by exact_mod_cast hpos
      exact this.ne'
    calc (kdeCurve t offs bw samples Kernel.gaussian).sum
        ≤ samples • ((1 / (2 * (bw : ℝ))) * ((t.tokens.length : ℝ) / (samples : ℝ))) := h
      _ = (t.tokens.length : ℝ) / (2 * (bw : ℝ)) := by
          rw [nsmul_eq_mul]
          field_simp
          ring

/-- C4 counterexample: at the concrete five-token text, with the default
bandwidth 2000 and 1000 samples, the self-intersection score of "b" is
at most 1/100, nowhere near 1: the claim that
`scoreIntersect(T, T) ≈ 1.0` within numeric tolerance is false. -/
theorem self_similarity_intersect_counterexample :
    ∃ r : ℝ, score_intersect text1 "b" "b" 2000 1000 Kernel.gaussian = .ok r ∧
      0 ≤ r ∧ r ≤ 1 / 100 := by
  have hterm : lookupTerm text1 "b" = some [1, 3] := by decide
  have hkde := @kde_ok text1 "b" [1, 3] 2000 1000 Kernel.gaussian hterm
    (by norm_num) (by norm_num)
  refine ⟨trapz (kdeCurve text1 [1, 3] 2000 1000 Kernel.gaussian), ?_, ?_, ?_⟩
  · simp only [score_intersect, hkde, zipWith_min_self]
  · -- the trapezoidal mass is non-negative
    have hnn := kdeCurve_nonneg text1 [1, 3] (by norm_num : (0:ℤ) < 2000) 1000 Kernel.gaussian
    clear hkde hterm
    generalize kdeCurve text1 [1, 3] 2000 1000 Kernel.gaussian = l at hnn
    induction l with
    | nil => simp [trapz]
    | cons a rest ih =>
        cases rest with
        | nil => simp [trapz]
        | cons b rest2 =>
            have ha := hnn a (List.mem_cons_self _ _)
            have hb := hnn b (List.mem_cons_of_mem _ (List.mem_cons_self _ _))
            have hr := ih (fun y hy => hnn y (List.mem_cons_of_mem _ hy))
            simp only [trapz] at hr ⊢
            linarith
  · have h1 := trapz_le_sum
      (kdeCurve_nonneg text1 [1, 3] (by norm_num : (0:ℤ) < 2000) 1000 Kernel.gaussian)
    have h2 := sum_kdeCurve_gaussian_le text1
      (show [1, 3] ≠ [] by simp) (show (0:ℤ) < 2000 by norm_num) 1000
    have hlen : text1.tokens.length = 5 := by decide
    rw [hlen] at h2
    have : ((2000 : ℤ) : ℝ) = 2000 := by norm_num
    rw [this] at h2
    calc trapz (kdeCurve text1 [1, 3] 2000 1000 Kernel.gaussian)
        ≤ (kdeCurve text1 [1, 3] 2000 1000 Kernel.gaussian).sum := h1
      _ ≤ (5 : ℝ) / (2 * 2000) := h2
      _ ≤ 1 / 100 := by norm_num

/-! ## Absent terms: KeyError propagation -/

lemma kde_absent {t : TextM} {term : String} (bw : ℤ) (samples : ℕ) (kern : Kernel)
    (habs : lookupTerm t term = none) :
    kde t term bw samples kern = .error .keyError := by
  simp only [kde, habs]

lemma methodFn_inv {method : String}
    {f : TextM → String → String → ℤ → ℕ → Kernel → Except PyErr ℝ}
    (h : methodFn method = some f) :
    f = score_intersect ∨ f = score_cosine ∨ f = score_braycurtis := by
  unfold methodFn at h
  split_ifs at h
  · exact Or.inl (Option.some.inj h).symm
  · exact Or.inr (Or.inl (Option.some.inj h).symm)
  · exact Or.inr (Or.inr (Option.some.inj h).symm)

/-- C5 (amended): for every term absent from the Term Index, `kde` and
all three scoring functions fail with the `KeyError` (`TermNotFound`)
condition rather than crashing or substituting a default value, and
`anchored_scores` with an absent anchor and a valid method aborts with
the same condition whenever the Term Index is nonempty; on an empty
index it instead returns an empty mapping without error (see the
counterexample). -/
theorem term_not_found_amended (t : TextM) (term : String) (bw : ℤ) (samples : ℕ)
    (kern : Kernel) (habs : lookupTerm t term = none) :
    kde t term bw samples kern = .error .keyError ∧
    (∀ t2, score_intersect t term t2 bw samples kern = .error .keyError) ∧
    (∀ t2, score_cosine t term t2 bw samples kern = .error .keyError) ∧
    (∀ t2, score_braycurtis t term t2 bw samples kern = .error .keyError) ∧
    (∀ (method : String) (f : TextM → String → String → ℤ → ℕ → Kernel → Except PyErr ℝ),
      methodFn method = some f → t.terms ≠ [] →
        anchored_scores t term method bw samples kern = .error .keyError) := by
  have hkde := @kde_absent t term bw samples kern habs
  have hscores : ∀ t2,
      score_intersect t term t2 bw samples kern = .error .keyError ∧
      score_cosine t term t2 bw samples kern = .error .keyError ∧
      score_braycurtis t term t2 bw samples kern = .error .keyError := by
    intro t2
    refine ⟨?_, ?_, ?_⟩ <;> simp only [score_intersect, score_cosine, score_braycurtis, hkde]
  refine ⟨hkde, fun t2 => (hscores t2).1, fun t2 => (hscores t2).2.1,
    fun t2 => (hscores t2).2.2, ?_⟩
  intro method f hmf hne
  cases hterms : t.terms with
  | nil => exact absurd hterms hne
  | cons q rest =>
      have hfq : f t term q.1 bw samples kern = .error .keyError := by
        rcases methodFn_inv hmf with rfl | rfl | rfl
        · exact (hscores q.1).1
        · exact (hscores q.1).2.1
        · exact (hscores q.1).2.2
      simp only [anchored_scores, hmf, hterms, collectScores, hfq]
      rfl

/-- Witness for `term_not_found_amended`: "zzz" is absent from the
concrete text's index. -/
theorem term_not_found_amended_witness :
    (lookupTerm text1 "zzz" = none) ∧
    (kde text1 "zzz" 2000 1000 Kernel.gaussian = .error .keyError ∧
    (∀ t2, score_intersect text1 "zzz" t2 2000 1000 Kernel.gaussian = .error .keyError) ∧
    (∀ t2, score_cosine text1 "zzz" t2 2000 1000 Kernel.gaussian = .error .keyError) ∧
    (∀ t2, score_braycurtis text1 "zzz" t2 2000 1000 Kernel.gaussian = .error .keyError) ∧
    (∀ (method : String) (f : TextM → String → String → ℤ → ℕ → Kernel → Except PyErr ℝ),
      methodFn method = some f → text1.terms ≠ [] →
        anchored_scores text1 "zzz" method 2000 1000 Kernel.gaussian = .error .keyError)) :=
  ⟨by decide, term_not_found_amended text1 "zzz" 2000 1000 Kernel.gaussian (by decide)⟩

/-- C5 counterexample: on the empty text every term, in particular
"cat", is absent from the (empty) Term Index, yet `anchored_scores`
does not abort with a `TermNotFound` condition: it returns the empty
mapping successfully. -/
theorem anchored_empty_index_counterexample :
    lookupTerm textEmpty "cat" = none ∧
    anchored_scores textEmpty "cat" "braycurtis" 2000 1000 Kernel.gaussian = .ok [] :=
  ⟨by decide, rfl⟩

/-! ## The anchored scan on a valid anchor and method -/

lemma collectScores_ok
    (f : TextM → String → String → ℤ → ℕ → Kernel → Except PyErr ℝ)
    (t : TextM) (anchor : String) (bw : ℤ) (samples : ℕ) (kern : Kernel) :
    ∀ (l : List (String × List ℕ)),
      (∀ q ∈ l, ∃ s, f t anchor q.1 bw samples kern = .ok s) →
      ∃ ps, collectScores f t anchor bw samples kern l = .ok ps ∧
        ps.map Prod.fst = l.map Prod.fst ∧
        ∀ p ∈ ps, f t anchor p.1 bw samples kern = .ok p.2 := by
  intro l
  induction l with
  | nil =>
      intro _
      exact ⟨[], rfl, rfl, by simp⟩
  | cons q rest ih =>
      intro hok
      obtain ⟨s, hs⟩ := hok q (List.mem_cons_self _ _)
      obtain ⟨ps, hps, hkeys, hval⟩ := ih (fun r hr => hok r (List.mem_cons_of_mem _ hr))
      refine ⟨(q.1, s) :: ps, ?_, ?_, ?_⟩
      · simp only [collectScores, hs, hps]
      · simp [hkeys]
      · intro p hp
        rcases List.mem_cons.mp hp with hp | hp
        · subst hp
          exact hs
        · exact hval p hp

/-- C9: for every anchor term present in the Term Index and every valid
method name, `anchored_scores` succeeds and computes the chosen score
between the anchor and every term in the index (including the anchor
itself), returning a mapping whose keys are exactly the indexed terms,
each exactly once (no duplicates), sorted by descending score with the
same stable sort (`sort_dict`) used by the Frequency Analyzer. -/
theorem anchored_scores_spec (stem : String → String) (stops ws : List String)
    (anchor method : String) (bw : ℤ) (samples : ℕ) (kern : Kernel)
    (f : TextM → String → String → ℤ → ℕ → Kernel → Except PyErr ℝ)
    (aoffs : List ℕ) (hmf : methodFn method = some f)
    (hanchor : lookupTerm (buildText stem stops ws) anchor = some aoffs)
    (hbw : 0 < bw) (hs : 1 ≤ samples) :
    ∃ l, anchored_scores (buildText stem stops ws) anchor method bw samples kern = .ok l ∧
      List.Perm (l.map Prod.fst) ((buildText stem stops ws).terms.map Prod.fst) ∧
      (l.map Prod.fst).Nodup ∧
      anchor ∈ l.map Prod.fst ∧
      l.Pairwise (fun p q => q.2 ≤ p.2) ∧
      (∀ p ∈ l, f (buildText stem stops ws) anchor p.1 bw samples kern = .ok p.2) := by
  have hwf := buildText_inv stem stops ws
  have h1 := @kde_ok (buildText stem stops ws) anchor aoffs bw samples kern
    hanchor hbw (by omega)
  have hok : ∀ q ∈ (buildText stem stops ws).terms,
      ∃ s, f (buildText stem stops ws) anchor q.1 bw samples kern = .ok s := by
    intro q hq
    have hq1 : lookupTerm (buildText stem stops ws) q.1 = some q.2 :=
      assocLookup_of_mem_nodup hwf.keysNodup hq
    have h2 := @kde_ok (buildText stem stops ws) q.1 q.2 bw samples kern
      hq1 hbw (by omega)
    rcases methodFn_inv hmf with rfl | rfl | rfl
    · exact ⟨trapz (List.zipWith min
        (kdeCurve (buildText stem stops ws) aoffs bw samples kern)
        (kdeCurve (buildText stem stops ws) q.2 bw samples kern)),
        by simp only [score_intersect, h1, h2]⟩
    · exact ⟨1 - cosineDist
        (kdeCurve (buildText stem stops ws) aoffs bw samples kern)
        (kdeCurve (buildText stem stops ws) q.2 bw samples kern),
        by simp only [score_cosine, h1, h2]⟩
    · exact ⟨1 - braycurtisDist
        (kdeCurve (buildText stem stops ws) aoffs bw samples kern)
        (kdeCurve (buildText stem stops ws) q.2 bw samples kern),
        by simp only [score_braycurtis, h1, h2]⟩
  obtain ⟨ps, hps, hkeys, hval⟩ :=
    collectScores_ok f (buildText stem stops ws) anchor bw samples kern _ hok
  have hperm : List.Perm ((sortDict ps).map Prod.fst)
      ((buildText stem stops ws).terms.map Prod.fst) := by
    rw [← hkeys]
    exact (sortDict_perm ps).map Prod.fst
  refine ⟨sortDict ps, ?_, hperm, ?_, ?_, sortDict_sorted ps, ?_⟩
  · simp only [anchored_scores, hmf, hps]
    rfl
  · exact hperm.nodup_iff.mpr hwf.keysNodup
  · apply hperm.mem_iff.mpr
    exact List.mem_map_of_mem Prod.fst (mem_of_assocLookup hanchor)
  · intro p hp
    exact hval p ((sortDict_perm ps).mem_iff.mp hp)

/-- Witness for `anchored_scores_spec` at the concrete text, anchor "b",
method "braycurtis". -/
theorem anchored_scores_spec_witness :
    (methodFn "braycurtis" = some score_braycurtis ∧
      lookupTerm (buildText stem0 stops0 words1) "b" = some [1, 3] ∧
      (0 : ℤ) < 2000 ∧ 1 ≤ 1000) ∧
    (∃ l, anchored_scores (buildText stem0 stops0 words1) "b" "braycurtis" 2000 1000
        Kernel.gaussian = .ok l ∧
      List.Perm (l.map Prod.fst) ((buildText stem0 stops0 words1).terms.map Prod.fst) ∧
      (l.map Prod.fst).Nodup ∧
      "b" ∈ l.map Prod.fst ∧
      l.Pairwise (fun p q => q.2 ≤ p.2) ∧
      (∀ p ∈ l, score_braycurtis (buildText stem0 stops0 words1) "b" p.1 2000 1000
        Kernel.gaussian = .ok p.2)) :=
  ⟨⟨rfl, by decide, by norm_num, by norm_num⟩,
    anchored_scores_spec stem0 stops0 words1 "b" "braycurtis" 2000 1000 Kernel.gaussian
      score_braycurtis [1, 3] rfl (by decide) (by norm_num) (by norm_num)⟩

/-! ## Stopword handling acts on the surface form -/

lemma tokStep_tokens (stops : List String) (s : TextM) (tok : Token) :
    (tokStep stops s tok).tokens =
      s.tokens ++ [if tok.unstemmed ∈ stops then none else some tok] := by
  unfold tokStep
  by_cases h : tok.unstemmed ∈ stops
  · rw [if_pos h, if_pos h]
  · rw [if_neg h, if_neg h]

lemma build_tokens_aux (stops : List String) :
    ∀ (toks : List Token) (s : TextM),
      (toks.foldl (tokStep stops) s).tokens =
        s.tokens ++ toks.map (fun tok => if tok.unstemmed ∈ stops then none else some tok) := by
  intro toks
  induction toks with
  | nil => intro s; simp
  | cons tok rest ih =>
      intro s
      simp only [List.foldl_cons, List.map_cons]
      rw [ih, tokStep_tokens]
      simp [List.append_assoc]

/-- The token sequence of a built text, positionally: position `i` holds
the sentinel if the surface word at `i` is a stopword, and the full
token otherwise. -/
lemma buildText_tokens (stem : String → String) (stops ws : List String) :
    (buildText stem stops ws).tokens =
      (utilsTokenize stem ws).map
        (fun tok => if tok.unstemmed ∈ stops then none else some tok) := by
  unfold buildText
  rw [build_tokens_aux]
  rfl

lemma utilsTokenize_getElem? (stem : String → String) (ws : List String) (i : ℕ) :
    (utilsTokenize stem ws)[i]? = ws[i]?.map (fun w => (⟨w, stem w, i⟩ : Token)) := by
  unfold utilsTokenize
  rw [List.getElem?_map]
  rcases Nat.lt_or_ge i ws.length with h | h
  · rw [List.getElem?_enumFrom, List.getElem?_eq_getElem h]
    simp
  · rw [List.getElem?_eq_none, List.getElem?_eq_none] <;> simp [h]

/-- C8 (amended): during tokenization, a token whose surface
(`unstemmed`) form is a stopword is retained in the token sequence as a
positional placeholder but excluded from the Term Index; the stopword
check applies to the surface form only, so every index entry's offsets
point at positions whose surface word is not a stopword (but a token
whose normalized form is a stopword can still be indexed: see the
counterexample). -/
theorem stopword_filter_amended (stem : String → String) (stops ws : List String) :
    (∀ (i : ℕ) (w : String), ws[i]? = some w → w ∈ stops →
      (buildText stem stops ws).tokens[i]? = some none) ∧
    (∀ p ∈ (buildText stem stops ws).terms, ∀ o ∈ p.2,
      ∃ w, ws[o]? = some w ∧ w ∉ stops) := by
  have htok := buildText_tokens stem stops ws
  constructor
  · intro i w hw hstop
    rw [htok, List.getElem?_map, utilsTokenize_getElem?, hw]
    simp only [Option.map_some']
    rw [if_pos hstop]
  · intro p hp o ho
    obtain ⟨tok, hget, _⟩ := (buildText_inv stem stops ws).maps p hp o ho
    rw [htok, List.getElem?_map, utilsTokenize_getElem?] at hget
    cases hw : ws[o]? with
    | none =>
        rw [hw] at hget
        simp at hget
    | some w =>
        rw [hw] at hget
        simp only [Option.map_some'] at hget
        refine ⟨w, rfl, ?_⟩
        intro hstop
        rw [if_pos hstop] at hget
        simp at hget

/-- Witness for `stopword_filter_amended`: in the concrete text, the
stopword "the" at position 0 is retained as a sentinel, and the offsets
of the indexed term "b" carry non-stopword surface words. -/
theorem stopword_filter_amended_witness :
    (words1[0]? = some "the" ∧ "the" ∈ stops0 ∧
      ("b", [1, 3]) ∈ (buildText stem0 stops0 words1).terms ∧ (1 : ℕ) ∈ [1, 3]) ∧
    ((buildText stem0 stops0 words1).tokens[0]? = some none ∧
      ∃ w, words1[1]? = some w ∧ w ∉ stops0) :=
  ⟨⟨by decide, by decide, by decide, by decide⟩,
    ⟨(stopword_filter_amended stem0 stops0 words1).1 0 "the" (by decide) (by decide),
      (stopword_filter_amended stem0 stops0 words1).2 ("b", [1, 3]) (by decide) 1 (by decide)⟩⟩

/-- C8 counterexample: with stopword set {"run"} and the stemmer sending
"running" to "run", the token "running" has a normalized form that is a
stopword, yet its offset 0 is recorded in the Term Index (under "run"):
the stopword check reads the surface form only, so the claim that a
token whose normalized form is a stopword never contributes an offset is
false. -/
theorem stemmed_stopword_indexed_counterexample :
    stem0 "running" = "run" ∧ "run" ∈ (["run"] : List String) ∧
    (buildText stem0 ["run"] ["running"]).terms = [("run", [0])] :=
  ⟨by decide, by decide, by decide⟩

/-! ## `Text.unstem` (text.py:172-189) -/

/-- The loop of `Text.unstem`: read the surface (`unstemmed`) form of
the token at each of the term's offsets.  Indexing out of range raises
`IndexError` and subscripting the `None` sentinel raises `TypeError`;
both are modelled by `none` (neither can occur on a constructed text, by
the Term Index invariant). -/
def collectSurfaces (t : TextM) : List ℕ → Option (List String)
  | [] => some []
  | o :: rest =>
      match t.tokens[o]? with
      | some (some tok) => (collectSurfaces t rest).map (fun l => tok.unstemmed :: l)
      | _ => none

/-- `Text.unstem` (text.py:172-189): collect the surface variants at the
term's offsets and return the most common one.
`Counter(originals).most_common(1)` sorts the counter's entries by
descending count with a stable sort over insertion order (first
occurrence), so its first element is the first-occurring variant of
maximal count: this is `List.argmax` of the occurrence count, which
keeps the earliest element on ties.  `most_common(1)[0]` on an empty
list raises `IndexError`. -/
def unstem (t : TextM) (term : String) : Except PyErr String :=
  match lookupTerm t term with
  | none => .error .keyError
  | some offs =>
      match collectSurfaces t offs with
      | none => .error .typeError
      | some originals =>
          match originals.argmax (fun w => originals.count w) with
          | none => .error .indexError
          | some u => .ok u

lemma collectSurfaces_spec (t : TextM) :
    ∀ offs : List ℕ, (∀ o ∈ offs, ∃ tok : Token, t.tokens[o]? = some (some tok)) →
      ∃ originals : List String, collectSurfaces t offs = some originals ∧
        originals.length = offs.length ∧
        ∀ w ∈ originals, ∃ o ∈ offs, ∃ tok : Token,
          t.tokens[o]? = some (some tok) ∧ tok.unstemmed = w := by
  intro offs
  induction offs with
  | nil =>
      intro _
      exact ⟨[], rfl, rfl, by simp⟩
  | cons o rest ih =>
      intro h
      obtain ⟨tok, htok⟩ := h o (List.mem_cons_self _ _)
      obtain ⟨originals, hor, hlen, hmem⟩ :=
        ih (fun o' ho' => h o' (List.mem_cons_of_mem _ ho'))
      refine ⟨tok.unstemmed :: originals, ?_, by simp [hlen], ?_⟩
      · simp only [collectSurfaces, htok, hor, Option.map_some']
      · intro w hw
        rcases List.mem_cons.mp hw with hw | hw
        · exact ⟨o, List.mem_cons_self _ _, tok, htok, hw.symm⟩
        · obtain ⟨o', ho', tok', h1, h2⟩ := hmem w hw
          exact ⟨o', List.mem_cons_of_mem _ ho', tok', h1, h2⟩

/-- C10: for every term present in the Term Index of a constructed text,
`unstem` succeeds and returns a surface form that actually occurs at one
of that term's indexed offsets, with maximal occurrence count among the
surface variants collected at those offsets; for a term absent from the
index the operation fails (with `KeyError`) rather than returning a
value. -/
theorem unstem_spec (stem : String → String) (stops ws : List String) :
    (∀ (term : String) (offs : List ℕ),
      lookupTerm (buildText stem stops ws) term = some offs →
      ∃ (originals : List String) (u : String),
        collectSurfaces (buildText stem stops ws) offs = some originals ∧
        unstem (buildText stem stops ws) term = .ok u ∧
        (∃ o ∈ offs, ∃ tok : Token,
          (buildText stem stops ws).tokens[o]? = some (some tok) ∧ tok.unstemmed = u) ∧
        (∀ w ∈ originals, originals.count w ≤ originals.count u)) ∧
    (∀ term : String, lookupTerm (buildText stem stops ws) term = none →
      unstem (buildText stem stops ws) term = .error .keyError) := by
  constructor
  · intro term offs hterm
    have hwf := buildText_inv stem stops ws
    have hmem : (term, offs) ∈ (buildText stem stops ws).terms := mem_of_assocLookup hterm
    have hoffs := hwf.nonempty _ hmem
    obtain ⟨originals, hor, hlen, hmemor⟩ := collectSurfaces_spec (buildText stem stops ws)
      offs (fun o ho => by
        obtain ⟨tok, h1, _⟩ := hwf.maps _ hmem o ho
        exact ⟨tok, h1⟩)
    have horne : originals ≠ [] := by
      intro hcon
      rw [hcon] at hlen
      exact hoffs (List.length_eq_zero.mp hlen.symm)
    cases hargmax : originals.argmax (fun w => originals.count w) with
    | none => exact absurd (List.argmax_eq_none.mp hargmax) horne
    | some u =>
        refine ⟨originals, u, hor, ?_, ?_, ?_⟩
        · simp only [unstem, hterm, hor, hargmax]
        · exact hmemor u (List.argmax_mem hargmax)
        · intro w hw
          exact List.le_of_mem_argmax hw hargmax
  · intro term habs
    simp only [unstem, habs]

/-- Witness for `unstem_spec`: the term "b" is present (two surface
occurrences "b"), and "zzz" is absent. -/
theorem unstem_spec_witness :
    (lookupTerm (buildText stem0 stops0 words1) "b" = some [1, 3] ∧
      lookupTerm (buildText stem0 stops0 words1) "zzz" = none) ∧
    ((∃ (originals : List String) (u : String),
        collectSurfaces (buildText stem0 stops0 words1) [1, 3] = some originals ∧
        unstem (buildText stem0 stops0 words1) "b" = .ok u ∧
        (∃ o ∈ [1, 3], ∃ tok : Token,
          (buildText stem0 stops0 words1).tokens[o]? = some (some tok) ∧
            tok.unstemmed = u) ∧
        (∀ w ∈ originals, originals.count w ≤ originals.count u)) ∧
      unstem (buildText stem0 stops0 words1) "zzz" = .error .keyError) :=
  ⟨⟨by decide, by decide⟩,
    ⟨(unstem_spec stem0 stops0 words1).1 "b" [1, 3] (by decide),
      (unstem_spec stem0 stops0 words1).2 "zzz" (by decide)⟩⟩

/-! ## Malformed parameters: what actually happens -/

/-- C6 (amended): there is no explicit `InvalidArgument` validation in
the code.  `kde` surfaces a non-positive bandwidth and a zero sample
count as the estimator's `ValueError`; `anchored_scores` surfaces an
unknown scoring method name as an `AttributeError` from the dynamic
attribute lookup; `most_frequent_terms` fails with an uncaught
`IndexError` for depth 0, but for a negative depth it does NOT fail: it
silently returns a result produced by Python's negative slice
semantics. -/
theorem invalid_params_amended (t : TextM) :
    (∀ (term : String) (offs : List ℕ) (bw : ℤ) (samples : ℕ) (kern : Kernel),
      lookupTerm t term = some offs → bw ≤ 0 →
      kde t term bw samples kern = .error .valueError) ∧
    (∀ (term : String) (offs : List ℕ) (bw : ℤ) (kern : Kernel),
      lookupTerm t term = some offs → 0 < bw →
      kde t term bw 0 kern = .error .valueError) ∧
    (∀ (anchor method : String) (bw : ℤ) (samples : ℕ) (kern : Kernel),
      methodFn method = none →
      anchored_scores t anchor method bw samples kern = .error .attrError) ∧
    most_frequent_terms t 0 = .error .indexError ∧
    (2 ≤ t.terms.length → ∃ S, most_frequent_terms t (-1) = .ok S) := by
  refine ⟨?_, ?_, ?_, ?_, ?_⟩
  · intro term offs bw samples kern hterm hbw
    simp only [kde, hterm]
    rw [if_pos hbw]
  · intro term offs bw kern hterm hbw
    simp only [kde, hterm]
    rw [if_neg (by omega)]
    simp only [if_true]
  · intro anchor method bw samples kern hmf
    simp only [anchored_scores, hmf]
  · simp [most_frequent_terms, pySlice]
  · intro h2
    have hlen : (term_counts t).length = t.terms.length :=
      (term_counts_perm t).length_eq.trans (List.length_map _ _)
    have hvlen : ((term_counts t).map Prod.snd).length = t.terms.length := by
      rw [List.length_map, hlen]
    have hslice : pySlice (-1) ((term_counts t).map Prod.snd) =
        ((term_counts t).map Prod.snd).take (((term_counts t).map Prod.snd).length - 1) := by
      rw [pySlice, if_pos (by norm_num)]
      norm_num
    have htne : ((term_counts t).map Prod.snd).take
        (((term_counts t).map Prod.snd).length - 1) ≠ [] := by
      intro hcon
      have := congrArg List.length hcon
      rw [List.length_take, List.length_nil] at this
      rw [hvlen] at this
      omega
    obtain ⟨e, he⟩ : ∃ e, (((term_counts t).map Prod.snd).take
        (((term_counts t).map Prod.snd).length - 1)).getLast? = some e := by
      rw [List.getLast?_eq_getLast _ htne]
      exact ⟨_, rfl⟩
    refine ⟨(pySlice (-1) ((term_counts t).map Prod.fst)).toFinset ∪
      (countBucket t e).toFinset, ?_⟩
    simp only [most_frequent_terms]
    rw [hslice, he]

/-- Witness for `invalid_params_amended` at the concrete text:
a negative bandwidth, a zero sample count, an unknown method name,
depth 0 and depth -1. -/
theorem invalid_params_amended_witness :
    (lookupTerm text1 "b" = some [1, 3] ∧ (-5 : ℤ) ≤ 0 ∧ (0 : ℤ) < 2000 ∧
      methodFn "frobnicate" = none ∧ 2 ≤ text1.terms.length) ∧
    (kde text1 "b" (-5) 1000 Kernel.gaussian = .error .valueError ∧
      kde text1 "b" 2000 0 Kernel.gaussian = .error .valueError ∧
      anchored_scores text1 "b" "frobnicate" 2000 1000 Kernel.gaussian =
        .error .attrError ∧
      most_frequent_terms text1 0 = .error .indexError ∧
      ∃ S, most_frequent_terms text1 (-1) = .ok S) :=
  ⟨⟨by decide, by norm_num, by norm_num, rfl, by decide⟩,
    ⟨(invalid_params_amended text1).1 "b" [1, 3] (-5) 1000 Kernel.gaussian
        (by decide) (by norm_num),
      (invalid_params_amended text1).2.1 "b" [1, 3] 2000 Kernel.gaussian
        (by decide) (by norm_num),
      (invalid_params_amended text1).2.2.1 "b" "frobnicate" 2000 1000 Kernel.gaussian rfl,
      (invalid_params_amended text1).2.2.2.1,
      (invalid_params_amended text1).2.2.2.2 (by decide)⟩⟩

/-- C6 counterexample: `most_frequent_terms` does not fail fast on the
non-positive depth -1; on the concrete text it silently returns the full
term set, computed from Python's negative slice semantics. -/
theorem negative_depth_counterexample :
    most_frequent_terms text1 (-1) = .ok {"b", "c", "d"} := by decide

/-! ## The `@lru_cache()` memoization of `Text.kde` (text.py:192)

`functools.lru_cache()` with no arguments is an LRU cache with
`maxsize = 128` (not unbounded).  A hit returns the stored array without
invoking the wrapped function and refreshes the entry's recency; a miss
invokes the function and, on success, inserts the result, evicting the
least recently used entry beyond 128; an exception is not cached.  The
cache key is the argument tuple (the owning text object plus
`(term, bandwidth, samples, kernel)`; we model one text's view). -/

/-- A `kde` cache key: the argument tuple `(term, bandwidth, samples,
kernel)`. -/
structure KdeKey where
  term : String
  bw : ℤ
  samples : ℕ
  kern : Kernel
deriving DecidableEq

/-- The default `maxsize` of `functools.lru_cache`. -/
def lruMaxsize : ℕ := 128

/-- Cache lookup (the cache list is ordered most-recently-used
first). -/
def lookupCache (c : List (KdeKey × List ℝ)) (k : KdeKey) : Option (List ℝ) :=
  assocLookup c k

/-- One call of the `lru_cache`-wrapped `kde`: the result, the new cache
state, and whether the wrapped function was actually invoked. -/
noncomputable def kdeCached (t : TextM) (c : List (KdeKey × List ℝ)) (k : KdeKey) :
    Except PyErr (List ℝ) × List (KdeKey × List ℝ) × Bool :=
  match lookupCache c k with
  | some v => (.ok v, (k, v) :: c.filter (fun p => p.1 != k), false)
  | none =>
      match kde t k.term k.bw k.samples k.kern with
      | .ok v => (.ok v, ((k, v) :: c).take lruMaxsize, true)
      | .error e => (.error e, c, true)

/-- A sequence of cached `kde` calls, returning the final cache state. -/
noncomputable def runKeys (t : TextM) (c : List (KdeKey × List ℝ))
    (ks : List KdeKey) : List (KdeKey × List ℝ) :=
  ks.foldl (fun c k => (kdeCached t c k).2.1) c

/-- The keys currently cached. -/
def keysOf (c : List (KdeKey × List ℝ)) : List KdeKey := c.map Prod.fst

/-- A key on which the wrapped `kde` succeeds. -/
def ValidKey (t : TextM) (k : KdeKey) : Prop :=
  (lookupTerm t k.term).isSome ∧ 0 < k.bw ∧ k.samples ≠ 0

/-- Every cached value is the value the wrapped computation returns for
its key. -/
def CacheWF (t : TextM) (c : List (KdeKey × List ℝ)) : Prop :=
  ∀ p ∈ c, kde t p.1.term p.1.bw p.1.samples p.1.kern = .ok p.2

/-- C7 (amended): the `kde` result is memoized in an LRU cache of
capacity 128 (the `functools.lru_cache` default), not an unbounded one.
On any well-formed cache state, a cached call returns exactly what the
uncached computation returns (so the curve for a fixed key is stable
across all repeated calls, however many distinct keys were requested in
between), well-formedness is preserved, and a cache hit returns the
stored array without invoking the computation. -/
theorem kde_cache_amended (t : TextM) (c : List (KdeKey × List ℝ)) (k : KdeKey)
    (hwf : CacheWF t c) :
    CacheWF t (kdeCached t c k).2.1 ∧
    (kdeCached t c k).1 = kde t k.term k.bw k.samples k.kern ∧
    (∀ v, lookupCache c k = some v →
      kdeCached t c k = (.ok v, (k, v) :: c.filter (fun p => p.1 != k), false)) := by
  cases hl : lookupCache c k with
  | some v =>
      have hmem : (k, v) ∈ c := mem_of_assocLookup hl
      have hval := hwf _ hmem
      refine ⟨?_, ?_, ?_⟩
      · simp only [kdeCached, hl]
        intro p hp
        rcases List.mem_cons.mp hp with hp | hp
        · subst hp
          exact hval
        · exact hwf p (List.mem_of_mem_filter hp)
      · simp only [kdeCached, hl]
        exact hval.symm
      · intro v' hv'
        obtain rfl := Option.some.inj hv'
        simp only [kdeCached, hl]
  | none =>
      cases hkde : kde t k.term k.bw k.samples k.kern with
      | ok v =>
          refine ⟨?_, ?_, ?_⟩
          · simp only [kdeCached, hl, hkde]
            intro p hp
            have hp2 := List.mem_of_mem_take hp
            rcases List.mem_cons.mp hp2 with hp2 | hp2
            · subst hp2
              exact hkde
            · exact hwf p hp2
          · simp only [kdeCached, hl, hkde]
          · intro v' hv'
            exact absurd hv'.symm (Option.some_ne_none _)
      | error e =>
          refine ⟨?_, ?_, ?_⟩
          · simp only [kdeCached, hl, hkde]
            exact hwf
          · simp only [kdeCached, hl, hkde]
          · intro v' hv'
            exact absurd hv'.symm (Option.some_ne_none _)

set_option maxRecDepth 4000 in
/-- Witness for `kde_cache_amended`: a one-entry well-formed cache and a
hit on its key. -/
theorem kde_cache_amended_witness :
    (CacheWF text1 [(⟨"b", 2000, 1000, Kernel.gaussian⟩,
        kdeCurve text1 [1, 3] 2000 1000 Kernel.gaussian)] ∧
      lookupCache [(⟨"b", 2000, 1000, Kernel.gaussian⟩,
        kdeCurve text1 [1, 3] 2000 1000 Kernel.gaussian)] ⟨"b", 2000, 1000, Kernel.gaussian⟩ =
        some (kdeCurve text1 [1, 3] 2000 1000 Kernel.gaussian)) ∧
    (kdeCached text1 [(⟨"b", 2000, 1000, Kernel.gaussian⟩,
        kdeCurve text1 [1, 3] 2000 1000 Kernel.gaussian)] ⟨"b", 2000, 1000, Kernel.gaussian⟩).1 =
      kde text1 "b" 2000 1000 Kernel.gaussian ∧
    (kdeCached text1 [(⟨"b", 2000, 1000, Kernel.gaussian⟩,
        kdeCurve text1 [1, 3] 2000 1000 Kernel.gaussian)] ⟨"b", 2000, 1000, Kernel.gaussian⟩).2.2 =
      false := by
  have hwf : CacheWF text1 [(⟨"b", 2000, 1000, Kernel.gaussian⟩,
      kdeCurve text1 [1, 3] 2000 1000 Kernel.gaussian)] := by
    intro p hp
    rcases List.mem_cons.mp hp with hp | hp
    · subst hp
      exact kde_ok (by decide) (by norm_num) (by norm_num)
    · simp at hp
  have hlook : lookupCache [(⟨"b", 2000, 1000, Kernel.gaussian⟩,
      kdeCurve text1 [1, 3] 2000 1000 Kernel.gaussian)] ⟨"b", 2000, 1000, Kernel.gaussian⟩ =
      some (kdeCurve text1 [1, 3] 2000 1000 Kernel.gaussian) := rfl
  have h := kde_cache_amended text1 _ ⟨"b", 2000, 1000, Kernel.gaussian⟩ hwf
  refine ⟨⟨hwf, hlook⟩, h.2.1, ?_⟩
  rw [h.2.2 _ hlook]

lemma take_append_take {α : Type _} (a b : List α) (n : ℕ) :
    (a ++ b.take n).take n = (a ++ b).take n := by
  rw [List.take_append_eq_append_take, List.take_append_eq_append_take, List.take_take,
    Nat.min_eq_left (Nat.sub_le n a.length)]

lemma kde_ok_of_valid {t : TextM} {k : KdeKey} (hv : ValidKey t k) :
    ∃ curve, kde t k.term k.bw k.samples k.kern = .ok curve := by
  obtain ⟨hsome, hbw, hs⟩ := hv
  obtain ⟨offs, hoffs⟩ := Option.isSome_iff_exists.mp hsome
  exact ⟨_, kde_ok hoffs hbw hs⟩

lemma kdeCached_fresh_keys {t : TextM} {c : List (KdeKey × List ℝ)} {k : KdeKey}
    (hfresh : k ∉ keysOf c) (hvalid : ValidKey t k) :
    keysOf (kdeCached t c k).2.1 = (k :: keysOf c).take lruMaxsize := by
  have hl : lookupCache c k = none := assocLookup_eq_none_iff.mpr hfresh
  obtain ⟨curve, hkde⟩ := kde_ok_of_valid hvalid
  simp only [kdeCached, hl, hkde]
  unfold keysOf
  rw [List.map_take]
  rfl

lemma runKeys_keys (t : TextM) :
    ∀ (ks : List KdeKey) (c : List (KdeKey × List ℝ)),
      (∀ k ∈ ks, ValidKey t k) → ks.Nodup → (∀ k ∈ ks, k ∉ keysOf c) →
      (keysOf c).length ≤ lruMaxsize →
      keysOf (runKeys t c ks) = (ks.reverse ++ keysOf c).take lruMaxsize := by
  intro ks
  induction ks with
  | nil =>
      intro c _ _ _ hlen
      simp only [runKeys, List.foldl_nil, List.reverse_nil, List.nil_append]
      exact (List.take_of_length_le hlen).symm
  | cons k rest ih =>
      intro c hvalid hnodup hfresh hlen
      have hkeys : keysOf (kdeCached t c k).2.1 = (k :: keysOf c).take lruMaxsize :=
        kdeCached_fresh_keys (hfresh k (List.mem_cons_self _ _))
          (hvalid k (List.mem_cons_self _ _))
      have hrest : ∀ k' ∈ rest, k' ∉ keysOf (kdeCached t c k).2.1 := by
        intro k' hk' hcon
        rw [hkeys] at hcon
        have hcon2 := List.mem_of_mem_take hcon
        rcases List.mem_cons.mp hcon2 with hcon2 | hcon2
        · subst hcon2
          exact (List.nodup_cons.mp hnodup).1 hk'
        · exact hfresh k' (List.mem_cons_of_mem _ hk') hcon2
      have hlen2 : (keysOf (kdeCached t c k).2.1).length ≤ lruMaxsize := by
        rw [hkeys, List.length_take]
        omega
      have := ih (kdeCached t c k).2.1 (fun k' hk' => hvalid k' (List.mem_cons_of_mem _ hk'))
        (List.nodup_cons.mp hnodup).2 hrest hlen2
      calc keysOf (runKeys t c (k :: rest))
          = keysOf (runKeys t (kdeCached t c k).2.1 rest) := rfl
        _ = (rest.reverse ++ keysOf (kdeCached t c k).2.1).take lruMaxsize := this
        _ = (rest.reverse ++ (k :: keysOf c).take lruMaxsize).take lruMaxsize := by
            rw [hkeys]
        _ = (rest.reverse ++ (k :: keysOf c)).take lruMaxsize := take_append_take _ _ _
        _ = ((k :: rest).reverse ++ keysOf c).take lruMaxsize := by
            rw [List.reverse_cons, List.append_assoc]
            rfl

/-- The request keys of the eviction scenario: term "b", bandwidth 2000,
gaussian kernel, sample counts 1, 2, ..., 129 (129 distinct cache
keys). -/
def mkKey (i : ℕ) : KdeKey := ⟨"b", 2000, i + 1, Kernel.gaussian⟩

/-- 129 distinct cache keys, requested in order. -/
def keySeq : List KdeKey := (List.range 129).map mkKey

lemma mkKey_injective : Function.Injective mkKey := by
  intro a b h
  have := congrArg KdeKey.samples h
  simpa [mkKey] using this

/-- C7 counterexample: the cache is not unbounded and does evict.  The
first key is requested, then 128 further distinct keys; afterwards the
first key is no longer cached, and a repeated call with those identical
parameters invokes the computation again instead of returning a cached
array. -/
theorem kde_cache_eviction_counterexample :
    mkKey 0 ∈ keySeq ∧
    lookupCache (runKeys text1 [] keySeq) (mkKey 0) = none ∧
    (kdeCached text1 (runKeys text1 [] keySeq) (mkKey 0)).2.2 = true := by
  have hvalid : ∀ k ∈ keySeq, ValidKey text1 k := by
    intro k hk
    obtain ⟨i, _, rfl⟩ := List.mem_map.mp hk
    refine ⟨?_, ?_, ?_⟩
    · simp only [mkKey]
      decide
    · simp only [mkKey]
      norm_num
    · simp only [mkKey]
      omega
  have hnodup : keySeq.Nodup := (List.nodup_range 129).map mkKey_injective
  have hkeys := runKeys_keys text1 keySeq [] hvalid hnodup (by simp [keysOf])
    (by simp [keysOf, lruMaxsize])
  have hsplit : keySeq = mkKey 0 :: (List.range 128).map (fun i => mkKey (i + 1)) := by
    unfold keySeq
    rw [show (129 : ℕ) = 128 + 1 from rfl, List.range_succ_eq_map, List.map_cons,
      List.map_map]
    rfl
  have hrevtake : keySeq.reverse.take lruMaxsize =
      ((List.range 128).map (fun i => mkKey (i + 1))).reverse := by
    rw [hsplit, List.reverse_cons]
    rw [show lruMaxsize = ((List.range 128).map (fun i => mkKey (i + 1))).reverse.length by
      simp [lruMaxsize]]
    exact List.take_left _ _
  have hfinal : keysOf (runKeys text1 [] keySeq) =
      ((List.range 128).map (fun i => mkKey (i + 1))).reverse := by
    rw [hkeys]
    simp only [keysOf, List.map_nil, List.append_nil]
    exact hrevtake
  have hnotmem : mkKey 0 ∉ keysOf (runKeys text1 [] keySeq) := by
    rw [hfinal, List.mem_reverse]
    intro hmem
    obtain ⟨i, _, hie⟩ := List.mem_map.mp hmem
    have := congrArg KdeKey.samples hie
    simp [mkKey] at this
  have hl : lookupCache (runKeys text1 [] keySeq) (mkKey 0) = none :=
    assocLookup_eq_none_iff.mpr hnotmem
  refine ⟨?_, hl, ?_⟩
  · unfold keySeq
    exact List.mem_map_of_mem mkKey (List.mem_range.mpr (by norm_num))
  · cases hkde : kde text1 (mkKey 0).term (mkKey 0).bw (mkKey 0).samples (mkKey 0).kern with
    | ok v => simp only [kdeCached, hl, hkde]
    | error e => simp only [kdeCached, hl, hkde]
